import Mathlib

/-!
Shallow embedding of `tbc-raw-stack` (median fusion of multiple TBC captures).

Sources embedded:
- `build.rs`: the `sort_net` compare-exchange tables and the generated
  `sort2` / `sort{i}` / `median{i}` / `batch_median{i}` / `batch_median_n`
  kernels (parametrised here by the vector lane count: 8 lanes for the
  SSE4.1 `__m128i` backend, 16 for AVX2 `__m256i`, 32 for AVX-512 `__m512i`).
- `src/median.rs`: the `batch_n` capability dispatch.
- `src/main.rs`: startup validation, the field loop (duplicate handling,
  sequence numbers, output emission), the dropout consensus sweep and the
  RMSE bad-input tracking.

Sample values are 16-bit unsigned integers; they are modelled as `Nat`
(all kernel operations here are monotone and overflow-free, the squared
error sums fit u64 for every field size the program admits, so the u64 /
u16 values coincide with the Nat values).
-/

/-! ## Median kernel (`build.rs`) -/

/-- Compare-exchange tables from `build.rs` (`sort_net`), index = input count.
Entries outside `[3, 15]` are unused by the generated code and map to `[]`. -/
def sortNet : Nat → List (Nat × Nat)
  | 3 => [(0, 2), (0, 1), (1, 2)]
  | 4 => [(0, 2), (1, 3), (0, 1), (2, 3), (1, 2)]
  | 5 => [(0, 3), (1, 4), (0, 2), (1, 3), (0, 1), (2, 4), (1, 2), (3, 4), (2, 3)]
  | 6 => [(0, 5), (1, 3), (2, 4), (1, 2), (3, 4), (0, 3), (2, 5), (0, 1), (2, 3), (4, 5),
      (1, 2), (3, 4)]
  | 7 => [(0, 6), (2, 3), (4, 5), (0, 2), (1, 4), (3, 6), (0, 1), (2, 5), (3, 4), (1, 2),
      (4, 6), (2, 3), (4, 5), (1, 2), (3, 4), (5, 6)]
  | 8 => [(0, 2), (1, 3), (4, 6), (5, 7), (0, 4), (1, 5), (2, 6), (3, 7), (0, 1), (2, 3),
      (4, 5), (6, 7), (2, 4), (3, 5), (1, 4), (3, 6), (1, 2), (3, 4), (5, 6)]
  | 9 => [(0, 3), (1, 7), (2, 5), (4, 8), (0, 7), (2, 4), (3, 8), (5, 6), (0, 2), (1, 3),
      (4, 5), (7, 8), (1, 4), (3, 6), (5, 7), (0, 1), (2, 4), (3, 5), (6, 8), (2, 3),
      (4, 5), (6, 7), (1, 2), (3, 4), (5, 6)]
  | 10 => [(0, 1), (2, 5), (3, 6), (4, 7), (8, 9), (0, 6), (1, 8), (2, 4), (3, 9), (5, 7),
      (0, 2), (1, 3), (4, 5), (6, 8), (7, 9), (0, 1), (2, 7), (3, 5), (4, 6), (8, 9),
      (1, 2), (3, 4), (5, 6), (7, 8), (1, 3), (2, 4), (5, 7), (6, 8), (2, 3), (4, 5),
      (6, 7)]
  | 11 => [(0, 9), (1, 6), (2, 4), (3, 7), (5, 8), (0, 1), (3, 5), (4, 10), (6, 9), (7, 8),
      (1, 3), (2, 5), (4, 7), (8, 10), (0, 4), (1, 2), (3, 7), (5, 9), (6, 8), (0, 1),
      (2, 6), (4, 5), (7, 8), (9, 10), (2, 4), (3, 6), (5, 7), (8, 9), (1, 2), (3, 4),
      (5, 6), (7, 8), (2, 3), (4, 5), (6, 7)]
  | 12 => [(0, 8), (1, 7), (2, 6), (3, 11), (4, 10), (5, 9), (0, 2), (1, 4), (3, 5), (6, 8),
      (7, 10), (9, 11), (0, 1), (2, 9), (4, 7), (5, 6), (10, 11), (1, 3), (2, 7), (4, 9),
      (8, 10), (0, 1), (2, 3), (4, 5), (6, 7), (8, 9), (10, 11), (1, 2), (3, 5), (6, 8),
      (9, 10), (2, 4), (3, 6), (5, 8), (7, 9), (1, 2), (3, 4), (5, 6), (7, 8), (9, 10)]
  | 13 => [(0, 11), (1, 7), (2, 4), (3, 5), (8, 9), (10, 12), (0, 2), (3, 6), (4, 12),
      (5, 7), (8, 10), (0, 8), (1, 3), (2, 5), (4, 9), (6, 11), (7, 12), (0, 1), (2, 10),
      (3, 8), (4, 6), (9, 11), (1, 3), (2, 4), (5, 10), (6, 8), (7, 9), (11, 12), (1, 2),
      (3, 4), (5, 8), (6, 9), (7, 10), (2, 3), (4, 7), (5, 6), (8, 11), (9, 10), (4, 5),
      (6, 7), (8, 9), (10, 11), (3, 4), (5, 6), (7, 8), (9, 10)]
  | 14 => [(0, 1), (2, 3), (4, 5), (6, 7), (8, 9), (10, 11), (12, 13), (0, 2), (1, 3),
      (4, 8), (5, 9), (10, 12), (11, 13), (0, 10), (1, 6), (2, 11), (3, 13), (5, 8),
      (7, 12), (1, 4), (2, 8), (3, 6), (5, 11), (7, 10), (9, 12), (0, 1), (3, 9), (4, 10),
      (5, 7), (6, 8), (12, 13), (1, 5), (2, 4), (3, 7), (6, 10), (8, 12), (9, 11), (1, 2),
      (3, 5), (4, 6), (7, 9), (8, 10), (11, 12), (2, 3), (4, 5), (6, 7), (8, 9), (10, 11),
      (3, 4), (5, 6), (7, 8), (9, 10)]
  | 15 => [(0, 6), (1, 10), (2, 14), (3, 9), (4, 12), (5, 13), (7, 11), (0, 7), (2, 5),
      (3, 4), (6, 11), (8, 10), (9, 12), (13, 14), (1, 13), (2, 3), (4, 6), (5, 9), (7, 8),
      (10, 14), (11, 12), (0, 3), (1, 4), (5, 7), (6, 13), (8, 9), (10, 11), (12, 14),
      (0, 2), (1, 5), (3, 8), (4, 6), (7, 10), (9, 11), (12, 13), (0, 1), (2, 5), (3, 10),
      (4, 8), (6, 7), (9, 12), (11, 13), (1, 2), (3, 4), (5, 6), (7, 9), (8, 10), (11, 12),
      (3, 5), (4, 6), (7, 8), (9, 10), (2, 3), (4, 5), (6, 7), (8, 9), (10, 11)]
  | _ => []

/-- One compare-exchange on a list of wire values: embeds the generated `sort2`
(`_mm_min_epu16` to the low wire, `_mm_max_epu16` to the high wire), applied at
the wire pair `p` of one lane's values. -/
def sort2 (l : List Nat) (p : Nat × Nat) : List Nat :=
  let a := l.getD p.1 0
  let b := l.getD p.2 0
  (l.set p.1 (Nat.min a b)).set p.2 (Nat.max a b)

/-- Runs a compare-exchange network over one lane's wire values: embeds the
generated `sort{i}`, whose body is the `sort_net[i]` sequence of `sort2` calls. -/
def sortN (net : List (Nat × Nat)) (l : List Nat) : List Nat :=
  net.foldl sort2 l

/-- One fused sample from the `n` input samples at one position: embeds the
generated `median{i}` (run `sort{i}`, take the middle wire for odd `i`, or
`_mm_avg_epu16` of the two middle wires — `(a + b + 1) >> 1` — for even `i`). -/
def medianN (v : List Nat) : Nat :=
  let n := v.length
  let s := sortN (sortNet n) v
  if n % 2 = 1 then s.getD (n / 2) 0
  else (s.getD (n / 2 - 1) 0 + s.getD (n / 2) 0 + 1) / 2

/-- Modelled from the spec wording of the claim (the refinement target, not the
code): middle element of the samples sorted ascending for odd `n`, rounded
average `(v[n/2-1] + v[n/2] + 1) / 2` of the two middle elements for even `n`. -/
def specMedian (v : List Nat) : Nat :=
  let n := v.length
  let s := List.insertionSort (fun a b : Nat => a ≤ b) v
  if n % 2 = 1 then s.getD (n / 2) 0
  else (s.getD (n / 2 - 1) 0 + s.getD (n / 2) 0 + 1) / 2

/-- Squared difference of the fused sample and one input sample, one lane of the
generated `sse` helper (`diff = a as i32 - b as i32; sq = diff as i64 * diff`). -/
def sseLane (a b : Nat) : Nat :=
  (((a : Int) - (b : Int)) * ((a : Int) - (b : Int))).toNat

/-- Fused sample of the inputs at absolute position `p` (one lane of the
`median{i}` call inside `batch_median{i}`). -/
def fusedAt (inputs : List (List Nat)) (p : Nat) : Nat :=
  medianN (inputs.map fun f => f.getD p 0)

/-- Output plane of `batch_median{i}`: the loop stores, for chunk `c` of
`lanes` samples, the lane-wise medians at positions `c * lanes + l`. -/
def batch_out (lanes len : Nat) (inputs : List (List Nat)) : List Nat :=
  (List.range (len / lanes)).flatMap fun c =>
    (List.range lanes).map fun l => fusedAt inputs (c * lanes + l)

/-- Squared-error sum for input `j` in `batch_median{i}`: the array is zeroed
(`sse_.fill(0)`) and then, per chunk, `sse_[j] += sse(m, va_j)` adds the lane
squared differences of that chunk. -/
def batch_sse (lanes len : Nat) (inputs : List (List Nat)) (j : Nat) : Nat :=
  ((List.range (len / lanes)).map fun c =>
    ((List.range lanes).map fun l =>
      sseLane (fusedAt inputs (c * lanes + l))
        ((inputs.getD j []).getD (c * lanes + l) 0)).sum).sum

/-- One generated backend of `batch_median_n` (width fixed by `lanes`):
returns the fused plane and the per-input squared-error sums. -/
def batch_median_n (lanes len : Nat) (inputs : List (List Nat)) :
    List Nat × List Nat :=
  (batch_out lanes len inputs,
   (List.range inputs.length).map fun j => batch_sse lanes len inputs j)

/-- Capability flags probed by `is_x86_feature_detected!` in `median.rs`. -/
structure CpuCaps where
  avx512bw : Bool
  avx2 : Bool
  sse41 : Bool

/-- Runtime dispatch `batch_n` from `median.rs`: AVX-512 (32 lanes), else AVX2
(16 lanes), else SSE4.1 (8 lanes), else `unimplemented!` (modelled as `none`). -/
def batch_n (caps : CpuCaps) (len : Nat) (inputs : List (List Nat)) :
    Option (List Nat × List Nat) :=
  if caps.avx512bw then some (batch_median_n 32 len inputs)
  else if caps.avx2 then some (batch_median_n 16 len inputs)
  else if caps.sse41 then some (batch_median_n 8 len inputs)
  else none

/-- Slice `[a, b)` of a plane, as produced by the `&buf[a..b]` range borrows
in `main.rs` before each kernel call. -/
def sliceR (l : List Nat) (a b : Nat) : List Nat :=
  (l.drop a).take (b - a)

/-! ## Bit-plane machinery for verifying the networks (proof device, not code:
wire `i` is represented by one number whose bit `t` is wire `i`'s value in the
0-1 test case `t`; a compare-exchange is then a bitwise AND/OR pair). -/

/-- Value (0 or 1) of bit `t` of `x`. -/
def bitVal (t x : Nat) : Nat :=
  (Nat.testBit x t).toNat

/-- Little-endian list of the low `n` bits of `t`. -/
def bitsOf : Nat → Nat → List Nat
  | 0, _ => []
  | n + 1, t => t % 2 :: bitsOf n (t / 2)

/-- Number of ones among the low `n` bits of `t`. -/
def pc : Nat → Nat → Nat
  | 0, _ => 0
  | n + 1, t => t % 2 + pc n (t / 2)

/-- Compare-exchange on bit planes: min of bits is AND, max of bits is OR. -/
def sort2B (l : List Nat) (p : Nat × Nat) : List Nat :=
  let a := l.getD p.1 0
  let b := l.getD p.2 0
  (l.set p.1 (Nat.land a b)).set p.2 (Nat.lor a b)

/-- Runs a compare-exchange network on bit planes. -/
def sortNB (net : List (Nat × Nat)) (l : List Nat) : List Nat :=
  net.foldl sort2B l

/-- Initial plane of wire `i` over all `2 ^ n` test cases: bit `t` equals
bit `i` of `t`. -/
def wirePat : Nat → Nat → Nat
  | 0, _ => 0
  | n + 1, i =>
    if i = n then (2 ^ 2 ^ n - 1) * 2 ^ 2 ^ n
    else wirePat n i + 2 ^ 2 ^ n * wirePat n i

/-- Expected plane of output wire `k` after sorting: bit `t` is 1 exactly when
the sorted 0-1 test case `t` has a 1 at position `k`, i.e. `n - pc n t ≤ k`. -/
def ePat : Nat → Nat → Nat
  | 0, _ => 1
  | n + 1, k => (if k = 0 then 0 else ePat n (k - 1)) + 2 ^ 2 ^ n * ePat n k

/-- All `n` initial wire planes. -/
def wires (n : Nat) : List Nat :=
  (List.range n).map (wirePat n)

/-- Bounds check: every wire index of the network is below `m`. -/
def netBounded (m : Nat) (net : List (Nat × Nat)) : Bool :=
  net.all fun p => p.1 < m && p.2 < m

/-! ## Startup validation and RMSE tracking (`main.rs`) -/

/-- Constant `MIN_INPUT_STREAMS` from `main.rs`. -/
def MIN_INPUT_STREAMS : Nat := 3

/-- Constant `MAX_INPUT_STREAMS` from `main.rs`. -/
def MAX_INPUT_STREAMS : Nat := 15

/-- Startup input-count validation: `main.rs` panics unless
`(MIN_INPUT_STREAMS..MAX_INPUT_STREAMS).contains(&args.input_basename.len())`,
and a Rust `Range` is half-open, so the accepted set is `MIN ≤ n < MAX`. -/
def input_count_ok (n : Nat) : Bool :=
  decide (MIN_INPUT_STREAMS ≤ n) && decide (n < MAX_INPUT_STREAMS)

/-- Constant `RMSE_WARN_THRESHOLD` from `main.rs`. -/
def RMSE_WARN_THRESHOLD : Nat := 30

/-- One input's RMSE bad-run tracking step from the field loop of `main.rs`:
`v` is this input's RMSE pSNR metric, `sum` the sum over all inputs, `n` the
input count and `c` the current `rmse_bad_in_a_row` counter. The f32 metric
values are modelled as rationals. Returns the new counter and whether the
run-length warning fires. -/
def rmse_track (n : Nat) (sum v : ℚ) (c : Nat) : Nat × Bool :=
  let avg_of_others := (sum - v) / ((n - 1 : Nat) : ℚ)
  if v < 32 ∧ v < avg_of_others - 5 then
    (c + 1, (c + 1) % RMSE_WARN_THRESHOLD == 0)
  else (0, false)

/-- The whole per-field RMSE tracking pass over all inputs. -/
def rmse_update (metrics : List ℚ) (counters : List Nat) : List (Nat × Bool) :=
  (List.range metrics.length).map fun i =>
    rmse_track metrics.length metrics.sum (metrics.getD i 0) (counters.getD i 0)

/-! ## Dropout consensus merge (`main.rs`) -/

/-- Mirrors `tbc_metadata::DropOuts`: three parallel vectors of spans. -/
structure DropOuts where
  field_line : List Nat
  startx : List Nat
  endx : List Nat
deriving DecidableEq

/-- Mirrors the local `enum Dropout { Start, End }` of `main.rs`. -/
inductive Dropout where
  | Start
  | End
deriving DecidableEq

/-- Events contributed by one input's `DropOuts` block: the `j` loop skips
spans with `line >= field_height` and pushes a Start event at
`line * field_width + startx` and an End event at `line * field_width + endx`. -/
def flat_dropouts_one (h w : Nat) (d : DropOuts) : List (Nat × Dropout) :=
  (List.range d.field_line.length).flatMap fun j =>
    let line := d.field_line.getD j 0
    if h ≤ line then []
    else [(line * w + d.startx.getD j 0, Dropout.Start),
          (line * w + d.endx.getD j 0, Dropout.End)]

/-- The `flat_map` over all inputs' optional dropout blocks. -/
def flat_dropouts (h w : Nat) (ins : List (Option DropOuts)) :
    List (Nat × Dropout) :=
  ins.flatMap fun o => match o with
    | some d => flat_dropouts_one h w d
    | none => []

/-- Event order used by `flat_dropouts.sort_unstable_by(|a, b| a.0.cmp(&b.0))`:
compare by absolute sample offset only. -/
def evLE (a b : Nat × Dropout) : Prop := a.1 ≤ b.1

instance : DecidableRel evLE := fun a b => Nat.decLe a.1 b.1

instance : IsTotal (Nat × Dropout) evLE := ⟨fun a b => Nat.le_total a.1 b.1⟩

instance : IsTrans (Nat × Dropout) evLE := ⟨fun _ _ _ => Nat.le_trans⟩

/-- The source sorts with `sort_unstable_by` on the offset alone; the embedding
fixes one offset-sorted permutation (stable insertion sort). Theorems that
depend on the tie order quantify over all offset-sorted permutations instead. -/
def sortEvents (evs : List (Nat × Dropout)) : List (Nat × Dropout) :=
  List.insertionSort evLE evs

/-- State of the sweep loop: `depth`, the recorded consensus `start`, and the
output `DropOuts` block under construction. -/
structure SweepState where
  depth : Nat
  start : Nat
  out : DropOuts
deriving DecidableEq

/-- One iteration of the sweep loop of `main.rs`: a Start event increments
`depth` and records `start` when `depth` hits the threshold; an End event
closes `[start, sample)` (translated back through `field_width`) when the
pre-decrement `depth` equals the threshold, then decrements `depth`. -/
def sweep_step (thr w : Nat) (st : SweepState) (ev : Nat × Dropout) : SweepState :=
  match ev.2 with
  | Dropout.Start =>
    let depth := st.depth + 1
    { st with depth, start := if depth = thr then ev.1 else st.start }
  | Dropout.End =>
    let out :=
      if st.depth = thr then
        let line := st.start / w
        ⟨st.out.field_line ++ [line], st.out.startx ++ [st.start - line * w],
         st.out.endx ++ [ev.1 - line * w]⟩
      else st.out
    { st with depth := st.depth - 1, out }

/-- The full sweep over a list of events. -/
def sweep (thr w : Nat) (evs : List (Nat × Dropout)) : SweepState :=
  evs.foldl (sweep_step thr w) ⟨0, 0, ⟨[], [], []⟩⟩

/-- The consensus merge assigned to `new_field.drop_outs`: `None` when there
are no events at all, otherwise the swept block (possibly with empty lists). -/
def merge_dropouts (thr w h : Nat) (ins : List (Option DropOuts)) :
    Option DropOuts :=
  let evs := sortEvents (flat_dropouts h w ins)
  if evs.isEmpty then none
  else some (sweep thr w evs).out

/-- Underflow monitor for the `depth -= 1` of the sweep (proof device): scans
the events with the same depth counter and reports `false` exactly when some
End event is processed at depth 0 (where the usize subtraction would wrap). -/
def underflowFreeAux : Nat → List (Nat × Dropout) → Bool
  | _, [] => true
  | d, (_, Dropout.Start) :: r => underflowFreeAux (d + 1) r
  | d, (_, Dropout.End) :: r => d != 0 && underflowFreeAux (d - 1) r

/-- Whether the sweep of `evs` never decrements `depth` at 0. -/
def underflowFree (evs : List (Nat × Dropout)) : Bool :=
  underflowFreeAux 0 evs

/-! ## Stream synchronizer (field loop of `main.rs`) -/

/-- Per-input stream state: the fields of `InputTbc` that drive the loop
(`fields` holds the `seq_no` of each metadata field record). -/
structure InputState where
  fields : List Nat
  field_index : Nat
  dupe_count : Nat
  last_seq_no : Nat
deriving DecidableEq

/-- Run configuration: `--max-fields` and `--dupes-to-drops`. -/
structure RunCfg where
  max_fields : Nat
  dupes_to_drops : Bool

/-- Mutable state of the field loop. `out_fields` holds the `seq_no` carried by
each emitted field record; `new_field` is the `seq_no` of the persistent
`new_field` record (in the source the record is cloned wholesale from input 0's
current field, so its `seq_no` is the part that matters here). -/
structure LoopState where
  inputs : List InputState
  out_fields : List Nat
  dupes_written : Nat
  drop_next : Bool
  new_field : Nat
deriving DecidableEq

/-- Whether the input's current field is a duplicate:
`fields[field_index].seq_no <= last_seq_no`. -/
def isDupe (f : InputState) : Bool :=
  f.fields.getD f.field_index 0 ≤ f.last_seq_no

/-- The duplicate-skip applied to one input inside the scan loop. -/
def dupeAdvance (f : InputState) : InputState :=
  if isDupe f then
    { f with dupe_count := f.dupe_count + 1, field_index := f.field_index + 1 }
  else f

/-- Exhaustion test `i.field_index == i.metadata.fields.len()`. -/
def anyExhausted (ins : List InputState) : Bool :=
  ins.any fun i => i.field_index == i.fields.length

/-- Whether the scan sets `should_write_dupe`: some input is at a duplicate
whose `dupe_count` parity matches `dupes_written`'s parity. -/
def shouldWriteDupe (dw : Nat) (ins : List InputState) : Bool :=
  ins.any fun f => isDupe f && f.dupe_count % 2 == dw % 2

/-- Cursor advance at the end of a fused iteration:
`last_seq_no := fields[field_index].seq_no; field_index += 1`. -/
def fuseAdvance (f : InputState) : InputState :=
  { f with last_seq_no := f.fields.getD f.field_index 0,
           field_index := f.field_index + 1 }

/-- Tail of a non-`continue` iteration: the `drop_next` check followed by the
write/append of the current `new_field`. -/
def emitTail (s : LoopState) : Option LoopState :=
  if s.drop_next then some { s with drop_next := false }
  else some { s with out_fields := s.out_fields ++ [s.new_field] }

/-- One iteration of the field loop (`loop { ... }` in `main.rs`): `none` means
the loop breaks (field cap reached or an input exhausted). In the fused branch
the `new_field.seq_no = new_field_idx + 1` store of the source is dead — the
whole record is immediately overwritten by the clone of input 0's current
field — so `new_field` ends up holding input 0's `seq_no`. -/
def step (cfg : RunCfg) (s : LoopState) : Option LoopState :=
  if cfg.max_fields ≠ 0 ∧ s.out_fields.length = cfg.max_fields then none
  else if anyExhausted s.inputs then none
  else
    let should := shouldWriteDupe s.dupes_written s.inputs
    let inputs1 := s.inputs.map dupeAdvance
    if anyExhausted inputs1 then none
    else if should then
      if cfg.dupes_to_drops then
        some { s with inputs := inputs1, dupes_written := s.dupes_written + 1,
                      drop_next := true }
      else
        emitTail { s with inputs := inputs1, dupes_written := s.dupes_written + 1 }
    else
      let f0 := inputs1.getD 0 ⟨[], 0, 0, 0⟩
      emitTail { s with inputs := inputs1.map fuseAdvance,
                        new_field := f0.fields.getD f0.field_index 0 }

/-- Fuel-bounded run of the field loop. -/
def runLoop (cfg : RunCfg) : Nat → LoopState → LoopState
  | 0, s => s
  | fuel + 1, s =>
    match step cfg s with
    | none => s
    | some s' => runLoop cfg fuel s'

/-- Number of Start events with offset strictly below `o` (proof device for
the underflow analysis of the sweep). -/
def cntS (o : Nat) (l : List (Nat × Dropout)) : Nat :=
  l.countP fun x => decide (x.2 = Dropout.Start) && decide (x.1 < o)

/-- Number of End events with offset at most `o` (proof device). -/
def cntE (o : Nat) (l : List (Nat × Dropout)) : Nat :=
  l.countP fun x => decide (x.2 = Dropout.End) && decide (x.1 ≤ o)

/-- Number of Start events (proof device). -/
def nS (l : List (Nat × Dropout)) : Nat :=
  l.countP fun x => decide (x.2 = Dropout.Start)

/-- Number of End events (proof device). -/
def nE (l : List (Nat × Dropout)) : Nat :=
  l.countP fun x => decide (x.2 = Dropout.End)

/-! ## Theorems -/

/-- Flattening a chunked traversal: the chunk loop of `batch_median{i}` visits
the positions `0, 1, ..., k * lanes - 1` in order. -/
theorem flatMap_range_chunks {α : Type} (g : Nat → α) (lanes k : Nat) :
    (List.range k).flatMap
        (fun c => (List.range lanes).map fun l => g (c * lanes + l)) =
      (List.range (k * lanes)).map g := by
  induction k with
  | zero => simp
  | succ k ih =>
    rw [List.range_succ, List.flatMap_append, ih, Nat.succ_mul, List.range_add,
      List.map_append, List.map_map]
    simp [Function.comp]

/-- Chunked summation equals flat summation over the same positions. -/
theorem sum_range_chunks (f : Nat → Nat) (lanes k : Nat) :
    ((List.range k).map
        (fun c => ((List.range lanes).map fun l => f (c * lanes + l)).sum)).sum =
      ((List.range (k * lanes)).map f).sum := by
  induction k with
  | zero => simp
  | succ k ih =>
    rw [List.range_succ, List.map_append, List.sum_append, ih, Nat.succ_mul,
      List.range_add, List.map_append, List.sum_append, List.map_map]
    rfl

/-- The fused plane does not depend on the lane width once the chunks cover the
whole buffer. -/
theorem batch_out_flat (lanes len : Nat) (inputs : List (List Nat))
    (hd : lanes ∣ len) :
    batch_out lanes len inputs = (List.range len).map (fusedAt inputs) := by
  unfold batch_out
  have h := flatMap_range_chunks (fusedAt inputs) lanes (len / lanes)
  rw [Nat.div_mul_cancel hd] at h
  exact h

/-- The per-input squared-error sum does not depend on the lane width. -/
theorem batch_sse_flat (lanes len : Nat) (inputs : List (List Nat)) (j : Nat)
    (hd : lanes ∣ len) :
    batch_sse lanes len inputs j =
      ((List.range len).map fun p =>
        sseLane (fusedAt inputs p) ((inputs.getD j []).getD p 0)).sum := by
  unfold batch_sse
  have h := sum_range_chunks
    (fun p => sseLane (fusedAt inputs p) ((inputs.getD j []).getD p 0)) lanes
    (len / lanes)
  rw [Nat.div_mul_cancel hd] at h
  exact h

/-- C2: under the kernel precondition (length a multiple of 32, equal-length
inputs, N in [3,15]) the three generated backends (8, 16 and 32 lanes of u16,
i.e. SSE4.1 / AVX2 / AVX-512) return identical fused planes and identical
per-input squared-error sums, so the capability dispatch of `batch_n` never
changes the result. -/
theorem C2_backend_equivalence (len : Nat) (inputs : List (List Nat))
    (hN : 3 ≤ inputs.length) (hN15 : inputs.length ≤ 15)
    (hlen : ∀ f ∈ inputs, f.length = len) (h32 : (32 : Nat) ∣ len) :
    (batch_median_n 8 len inputs = batch_median_n 32 len inputs ∧
     batch_median_n 16 len inputs = batch_median_n 32 len inputs) ∧
    (∀ caps caps' : CpuCaps,
      (caps.avx512bw = true ∨ caps.avx2 = true ∨ caps.sse41 = true) →
      (caps'.avx512bw = true ∨ caps'.avx2 = true ∨ caps'.sse41 = true) →
      batch_n caps len inputs = batch_n caps' len inputs) := by
  have h8 : (8 : Nat) ∣ len := dvd_trans (by norm_num) h32
  have h16 : (16 : Nat) ∣ len := dvd_trans (by norm_num) h32
  have key : ∀ lanes : Nat, lanes ∣ len →
      batch_median_n lanes len inputs =
        ((List.range len).map (fusedAt inputs),
         (List.range inputs.length).map fun j =>
           ((List.range len).map fun p =>
             sseLane (fusedAt inputs p) ((inputs.getD j []).getD p 0)).sum) := by
    intro lanes hd
    unfold batch_median_n
    congr 1
    · exact batch_out_flat _ _ _ hd
    · exact List.map_congr_left fun j _ => batch_sse_flat _ _ _ _ hd
  have eA : batch_median_n 8 len inputs = batch_median_n 32 len inputs :=
    (key 8 h8).trans (key 32 h32).symm
  have eB : batch_median_n 16 len inputs = batch_median_n 32 len inputs :=
    (key 16 h16).trans (key 32 h32).symm
  refine ⟨⟨eA, eB⟩, ?_⟩
  have norm : ∀ c : CpuCaps,
      (c.avx512bw = true ∨ c.avx2 = true ∨ c.sse41 = true) →
      batch_n c len inputs = some (batch_median_n 32 len inputs) := by
    intro c hcc
    obtain ⟨a5, a2, s4⟩ := c
    simp only at hcc
    cases a5 <;> cases a2 <;> cases s4 <;> simp_all [batch_n, eA, eB]
  intro caps caps' hc hc'
  exact (norm caps hc).trans (norm caps' hc').symm

/-- Witness for C2 at a concrete input: three constant planes of length 32. -/
theorem C2_backend_equivalence_witness :
    batch_median_n 8 32
        [List.replicate 32 5, List.replicate 32 7, List.replicate 32 9] =
      batch_median_n 32 32
        [List.replicate 32 5, List.replicate 32 7, List.replicate 32 9] := by
  exact (C2_backend_equivalence 32
    [List.replicate 32 5, List.replicate 32 7, List.replicate 32 9]
    (by decide) (by decide) (by decide) (by decide)).1.1

/-- Reading a `[a, b)` slice at relative index `i < b - a` reads the underlying
plane at absolute index `a + i`. -/
theorem sliceR_getD (l : List Nat) (a b i : Nat) (hi : i < b - a) :
    (sliceR l a b).getD i 0 = l.getD (a + i) 0 := by
  unfold sliceR
  rw [List.getD_eq_getElem?_getD, List.getD_eq_getElem?_getD,
    List.getElem?_take, if_pos hi, List.getElem?_drop]

/-- Indexing the sliced input list commutes with slicing the indexed input. -/
theorem getD_map_sliceR (inputs : List (List Nat)) (a b j : Nat) :
    (inputs.map fun f => sliceR f a b).getD j [] =
      sliceR (inputs.getD j []) a b := by
  by_cases h : j < inputs.length
  · rw [List.getD_eq_getElem _ _ (by simpa using h), List.getD_eq_getElem _ _ h,
      List.getElem_map]
  · rw [List.getD_eq_default _ _ (by simpa using Nat.le_of_not_lt h),
      List.getD_eq_default _ _ (Nat.le_of_not_lt h)]
    simp [sliceR]

/-- The fused sample of sliced inputs is the fused sample of the full inputs at
the corresponding absolute position. -/
theorem fusedAt_sliceR (inputs : List (List Nat)) (a b i : Nat)
    (hi : i < b - a) :
    fusedAt (inputs.map fun f => sliceR f a b) i = fusedAt inputs (a + i) := by
  unfold fusedAt
  rw [List.map_map]
  exact congrArg _ (List.map_congr_left fun f _ => sliceR_getD f a b i hi)

/-- Splitting a flat summation over `[0, m + n)` at `m`. -/
theorem sum_range_add (F : Nat → Nat) (m n : Nat) :
    ((List.range (m + n)).map F).sum =
      ((List.range m).map F).sum + ((List.range n).map fun i => F (m + i)).sum := by
  rw [List.range_add, List.map_append, List.sum_append, List.map_map]
  rfl

/-- Splitting a flat summation over `[0, len)` at `a ≤ b ≤ len`. -/
theorem sum_range_split (F : Nat → Nat) (a b len : Nat) (hab : a ≤ b)
    (hbl : b ≤ len) :
    ((List.range a).map F).sum +
      ((List.range (b - a)).map fun i => F (a + i)).sum +
      ((List.range (len - b)).map fun i => F (b + i)).sum =
      ((List.range len).map F).sum := by
  have s1 := sum_range_add F a (b - a)
  have s2 := sum_range_add F b (len - b)
  rw [show a + (b - a) = b from by omega] at s1
  rw [show b + (len - b) = len from by omega] at s2
  rw [s2, s1]

/-- C3: for the dispatched kernel (any of the three lane widths), splitting a
field's plane into pre-edge `[0, a)`, useful `[a, b)` and post-edge `[b, len)`
kernel calls (each of which zeroes its own `squared_error` array, so each call
returns exactly its range's sum) yields per-input results that add up to the
single full-range call's result, and the per-call results summed in any other
order of the same ranges give the same total. -/
theorem C3_sse_split_order_independent (lanes a b len j : Nat)
    (inputs : List (List Nat))
    (hl : lanes = 8 ∨ lanes = 16 ∨ lanes = 32)
    (ha : (32 : Nat) ∣ a) (hb : (32 : Nat) ∣ b) (hlen : (32 : Nat) ∣ len)
    (hab : a ≤ b) (hbl : b ≤ len) :
    (batch_sse lanes a (inputs.map fun f => sliceR f 0 a) j +
     batch_sse lanes (b - a) (inputs.map fun f => sliceR f a b) j +
     batch_sse lanes (len - b) (inputs.map fun f => sliceR f b len) j =
     batch_sse lanes len (inputs.map fun f => sliceR f 0 len) j) ∧
    (∀ rs rs' : List (Nat × Nat), rs.Perm rs' →
      (rs.map fun r => batch_sse lanes (r.2 - r.1)
        (inputs.map fun f => sliceR f r.1 r.2) j).sum =
      (rs'.map fun r => batch_sse lanes (r.2 - r.1)
        (inputs.map fun f => sliceR f r.1 r.2) j).sum) := by
  have hlan32 : lanes ∣ 32 := by rcases hl with rfl | rfl | rfl <;> norm_num
  have call : ∀ x y : Nat, lanes ∣ (y - x) →
      batch_sse lanes (y - x) (inputs.map fun f => sliceR f x y) j =
        ((List.range (y - x)).map fun i =>
          sseLane (fusedAt inputs (x + i))
            ((inputs.getD j []).getD (x + i) 0)).sum := by
    intro x y hd
    rw [batch_sse_flat _ _ _ _ hd]
    exact congrArg List.sum (List.map_congr_left fun i hi => by
      have hi' : i < y - x := List.mem_range.mp hi
      rw [fusedAt_sliceR _ _ _ _ hi', getD_map_sliceR, sliceR_getD _ _ _ _ hi'])
  have h1 := call 0 a (by simpa using dvd_trans hlan32 ha)
  have h2 := call a b (dvd_trans hlan32 (Nat.dvd_sub' hb ha))
  have h3 := call b len (dvd_trans hlan32 (Nat.dvd_sub' hlen hb))
  have h4 := call 0 len (by simpa using dvd_trans hlan32 hlen)
  simp only [Nat.sub_zero, Nat.zero_add] at h1 h4
  constructor
  · rw [h1, h2, h3, h4]
    exact sum_range_split _ a b len hab hbl
  · intro rs rs' hperm
    exact List.Perm.sum_eq (hperm.map _)

/-- Witness for C3 on three constant planes of length 96 split at 32 and 64. -/
theorem C3_sse_split_order_independent_witness :
    batch_sse 8 32
        (([List.replicate 96 5, List.replicate 96 7, List.replicate 96 9]).map
          fun f => sliceR f 0 32) 0 +
      batch_sse 8 (64 - 32)
        (([List.replicate 96 5, List.replicate 96 7, List.replicate 96 9]).map
          fun f => sliceR f 32 64) 0 +
      batch_sse 8 (96 - 64)
        (([List.replicate 96 5, List.replicate 96 7, List.replicate 96 9]).map
          fun f => sliceR f 64 96) 0 =
      batch_sse 8 96
        (([List.replicate 96 5, List.replicate 96 7, List.replicate 96 9]).map
          fun f => sliceR f 0 96) 0 :=
  (C3_sse_split_order_independent 8 32 64 96 0
    [List.replicate 96 5, List.replicate 96 7, List.replicate 96 9]
    (Or.inl rfl) (by decide) (by decide) (by decide) (by decide) (by decide)).1

/-- C5: the startup validation is claimed to accept every input count in
`[3, 15]` inclusive; the code's half-open range check accepts `[3, 14]` and
rejects 15 (while `MAX_INPUT_STREAMS = 15` and the generated kernels cover 15),
so the code evaluates to `false` at the claimed-accepted count 15. -/
theorem C5_input_count_eval :
    input_count_ok 15 = false ∧ input_count_ok 14 = true ∧
    input_count_ok 3 = true ∧ input_count_ok 2 = false ∧
    (∀ n, input_count_ok n = true ↔ 3 ≤ n ∧ n ≤ 14) := by
  refine ⟨by decide, by decide, by decide, by decide, fun n => ?_⟩
  simp [input_count_ok, MIN_INPUT_STREAMS, MAX_INPUT_STREAMS]
  omega

/-- C4 (code-bug evaluation): running the field loop on three identical inputs
whose metadata fields carry sequence numbers 5 and 6 emits output fields whose
stored sequence numbers are 5 and 6 — input 0's numbers, not the claimed
1-based emission positions (the `new_field.seq_no = new_field_idx + 1` store is
dead: the record is immediately overwritten by the clone of input 0's field). -/
theorem C4_seq_no_not_reassigned :
    (runLoop ⟨0, false⟩ 10
      ⟨[⟨[5, 6], 0, 0, 0⟩, ⟨[5, 6], 0, 0, 0⟩, ⟨[5, 6], 0, 0, 0⟩],
        [], 0, false, 5⟩).out_fields = [5, 6] ∧
    ¬ (runLoop ⟨0, false⟩ 10
      ⟨[⟨[5, 6], 0, 0, 0⟩, ⟨[5, 6], 0, 0, 0⟩, ⟨[5, 6], 0, 0, 0⟩],
        [], 0, false, 5⟩).out_fields.getD 0 0 = 0 + 1 := by
  decide

/-- C8: per emitted field and input `i`, the code increments the
consecutive-bad counter exactly when input `i` is suspect (metric below 32 and
more than 5 below the mean of the others), warns exactly when the incremented
counter is a positive multiple of `RMSE_WARN_THRESHOLD = 30`, and resets the
counter to 0 otherwise. -/
theorem C8_rmse_tracking (metrics : List ℚ) (counters : List Nat) (i : Nat)
    (hi : i < metrics.length) :
    ((metrics.getD i 0 < 32 ∧ metrics.getD i 0 <
        (metrics.sum - metrics.getD i 0) / ((metrics.length - 1 : Nat) : ℚ) - 5) →
      ((rmse_update metrics counters).getD i (0, false)).1 = counters.getD i 0 + 1 ∧
      (((rmse_update metrics counters).getD i (0, false)).2 = true ↔
        ∃ m, 0 < m ∧ ((rmse_update metrics counters).getD i (0, false)).1 =
          RMSE_WARN_THRESHOLD * m)) ∧
    (¬ (metrics.getD i 0 < 32 ∧ metrics.getD i 0 <
        (metrics.sum - metrics.getD i 0) / ((metrics.length - 1 : Nat) : ℚ) - 5) →
      ((rmse_update metrics counters).getD i (0, false)).1 = 0 ∧
      ((rmse_update metrics counters).getD i (0, false)).2 = false) := by
  have hup : (rmse_update metrics counters).getD i (0, false) =
      rmse_track metrics.length metrics.sum (metrics.getD i 0)
        (counters.getD i 0) := by
    have hlen : i < (rmse_update metrics counters).length := by
      simpa [rmse_update] using hi
    rw [List.getD_eq_getElem _ _ hlen]
    simp [rmse_update]
  rw [hup]
  unfold rmse_track
  constructor
  · intro hs
    rw [if_pos hs]
    refine ⟨rfl, ?_⟩
    show ((counters.getD i 0 + 1) % RMSE_WARN_THRESHOLD == 0) = true ↔
      ∃ m, 0 < m ∧ counters.getD i 0 + 1 = RMSE_WARN_THRESHOLD * m
    rw [beq_iff_eq]
    constructor
    · intro hmod
      obtain ⟨m, hm⟩ := Nat.dvd_of_mod_eq_zero hmod
      have hm' : counters.getD i 0 + 1 = 30 * m := hm
      exact ⟨m, by omega, hm⟩
    · rintro ⟨m, hm, he⟩
      rw [he]
      exact Nat.mul_mod_right _ _
  · intro hs
    rw [if_neg hs]
    exact ⟨rfl, rfl⟩

/-- Witness for C8 at a concrete field: metrics `[1, 40, 40]`, fresh counters;
input 0 is suspect (1 < 32 and 1 < (81-1)/2 - 5), so its counter becomes 1. -/
theorem C8_rmse_tracking_witness :
    ((rmse_update [1, 40, 40] [0, 0, 0]).getD 0 (0, false)).1 = 1 := by
  have h := (C8_rmse_tracking [1, 40, 40] [0, 0, 0] 0 (by decide)).1 (by norm_num)
  simpa using h.1

/-- Sorting the events preserves emptiness. -/
theorem sortEvents_eq_nil_iff (evs : List (Nat × Dropout)) :
    sortEvents evs = [] ↔ evs = [] := by
  constructor
  · intro h
    have hp := List.perm_insertionSort evLE evs
    rw [show List.insertionSort evLE evs = sortEvents evs from rfl, h] at hp
    exact hp.symm.eq_nil
  · intro h
    rw [h]
    rfl

/-- One input's event list is empty exactly when all its spans are invalid. -/
theorem flat_dropouts_one_eq_nil (h w : Nat) (d : DropOuts) :
    flat_dropouts_one h w d = [] ↔
      ∀ j < d.field_line.length, h ≤ d.field_line.getD j 0 := by
  unfold flat_dropouts_one
  rw [List.flatMap_eq_nil_iff]
  constructor
  · intro hall j hj
    have hq := hall j (List.mem_range.mpr hj)
    by_contra hle
    rw [if_neg hle] at hq
    exact absurd hq (by simp)
  · intro hall j hj
    rw [if_pos (hall j (List.mem_range.mp hj))]

/-- C9: the dropout block attached to the emitted field is `None` exactly when
no input contributed a valid span (one with `line < field_height`); whenever
some input did contribute, the block is present and holds the swept result —
in particular, when no consensus interval closes, a present block whose three
span lists are all empty. -/
theorem C9_empty_dropout_block (thr w h : Nat) (ins : List (Option DropOuts)) :
    (merge_dropouts thr w h ins = none ↔
      ∀ o ∈ ins, ∀ d : DropOuts, o = some d →
        ∀ j < d.field_line.length, h ≤ d.field_line.getD j 0) ∧
    (flat_dropouts h w ins ≠ [] →
      merge_dropouts thr w h ins =
        some (sweep thr w (sortEvents (flat_dropouts h w ins))).out) := by
  have hiff : flat_dropouts h w ins = [] ↔
      ∀ o ∈ ins, ∀ d : DropOuts, o = some d →
        ∀ j < d.field_line.length, h ≤ d.field_line.getD j 0 := by
    unfold flat_dropouts
    rw [List.flatMap_eq_nil_iff]
    constructor
    · intro hall o ho d hd j hj
      have hq := hall o ho
      rw [hd] at hq
      exact (flat_dropouts_one_eq_nil h w d).mp hq j hj
    · intro hall o ho
      cases o with
      | none => rfl
      | some d => exact (flat_dropouts_one_eq_nil h w d).mpr (hall _ ho d rfl)
  have hm : merge_dropouts thr w h ins = none ↔ flat_dropouts h w ins = [] := by
    rw [← sortEvents_eq_nil_iff, ← List.isEmpty_iff]
    unfold merge_dropouts
    cases he : (sortEvents (flat_dropouts h w ins)).isEmpty
    · simp [he]
    · simp [he]
  refine ⟨hm.trans hiff, fun hne => ?_⟩
  unfold merge_dropouts
  rw [if_neg (by simp [List.isEmpty_iff, sortEvents_eq_nil_iff, hne])]

/-- Witness for C9: one input contributes the valid span line 1, x in `[2, 4)`
with threshold 2 (never reached), so the block is present with empty lists. -/
theorem C9_empty_dropout_block_witness :
    merge_dropouts 2 10 5 [some ⟨[1], [2], [4]⟩] = some ⟨[], [], []⟩ := by
  rw [(C9_empty_dropout_block 2 10 5 [some ⟨[1], [2], [4]⟩]).2 (by decide)]
  decide

/-- A list sorted by offset whose elements all equal `x` or `y`, where `x`'s
offset is strictly below `y`'s, and which is a permutation of `kx` copies of
`x` and `ky` copies of `y`, is the run of `x`s followed by the run of `y`s. -/
theorem sorted_two_value {x y : Nat × Dropout} (hxy : x.1 < y.1) :
    ∀ (l : List (Nat × Dropout)) (kx ky : Nat), List.Sorted evLE l →
      l.Perm (List.replicate kx x ++ List.replicate ky y) →
      l = List.replicate kx x ++ List.replicate ky y
  | [], kx, ky, _, hp => hp.symm.eq_nil.symm
  | a :: t, kx, ky, hs, hp => by
    have hxny : x ≠ y := fun hc => by rw [hc] at hxy; exact lt_irrefl _ hxy
    have hmem_l : ∀ e ∈ a :: t, e = x ∨ e = y := by
      intro e he
      have hm := hp.mem_iff.mp he
      rw [List.mem_append, List.mem_replicate, List.mem_replicate] at hm
      tauto
    rcases hmem_l a (List.mem_cons_self _ _) with ha | ha
    · subst ha
      obtain ⟨kx', rfl⟩ : ∃ kx', kx = kx' + 1 := by
        cases kx with
        | zero =>
          exfalso
          rw [List.replicate_zero, List.nil_append] at hp
          have hm := hp.mem_iff.mp (List.mem_cons_self a t)
          rw [List.mem_replicate] at hm
          exact hxny hm.2
        | succ k => exact ⟨k, rfl⟩
      rw [List.replicate_succ, List.cons_append] at hp ⊢
      exact congrArg _
        (sorted_two_value hxy t kx' ky hs.of_cons hp.cons_inv)
    · subst ha
      have htall : ∀ e ∈ t, e = a := by
        intro e he
        rcases hmem_l e (List.mem_cons_of_mem _ he) with h | h
        · exfalso
          have hle := List.rel_of_sorted_cons hs e he
          rw [h] at hle
          exact absurd (lt_of_le_of_lt hle hxy) (lt_irrefl _)
        · exact h
      have hkx : kx = 0 := by
        by_contra hkx
        have hx_mem : x ∈ List.replicate kx x ++ List.replicate ky a := by
          rw [List.mem_append, List.mem_replicate]
          exact Or.inl ⟨hkx, rfl⟩
        have hx_l := hp.symm.mem_iff.mp hx_mem
        rcases List.mem_cons.mp hx_l with h | h
        · exact hxny h
        · exact hxny (htall x h)
      subst hkx
      rw [List.replicate_zero, List.nil_append] at hp ⊢
      have hlen : (a :: t).length = ky := by
        have := hp.length_eq
        rwa [List.length_replicate] at this
      have hmem_y : ∀ b ∈ a :: t, b = a := by
        intro b hb
        rcases List.mem_cons.mp hb with h | h
        · exact h ▸ rfl
        · exact htall b h
      exact List.eq_replicate_iff.mpr ⟨hlen, hmem_y⟩

/-- The event block of a single valid span. -/
theorem flat_dropouts_one_single (h w line sx ex : Nat) (hlh : line < h) :
    flat_dropouts_one h w ⟨[line], [sx], [ex]⟩ =
      [(line * w + sx, Dropout.Start), (line * w + ex, Dropout.End)] := by
  unfold flat_dropouts_one
  rw [show List.range ([line] : List Nat).length = [0] from rfl]
  simp [Nat.not_le.mpr hlh]

/-- When every contributing input supplies the same single valid span, the flat
event list is a permutation of `k` Starts followed by `k` Ends, `k` the number
of contributing inputs. -/
theorem flat_perm_coinciding (w h line sx ex : Nat) (hlh : line < h) :
    ∀ ins : List (Option DropOuts),
      (∀ o ∈ ins, o = none ∨ o = some ⟨[line], [sx], [ex]⟩) →
      (flat_dropouts h w ins).Perm
        (List.replicate (ins.count (some ⟨[line], [sx], [ex]⟩))
            (line * w + sx, Dropout.Start) ++
         List.replicate (ins.count (some ⟨[line], [sx], [ex]⟩))
            (line * w + ex, Dropout.End))
  | [], _ => by simp [flat_dropouts]
  | o :: t, hm => by
    have iht := flat_perm_coinciding w h line sx ex hlh t
      fun o' ho' => hm o' (List.mem_cons_of_mem _ ho')
    rcases hm o (List.mem_cons_self _ _) with ho | ho
    · subst ho
      rw [show flat_dropouts h w (none :: t) = flat_dropouts h w t from rfl,
        List.count_cons_of_ne (by simp)]
      exact iht
    · subst ho
      rw [show flat_dropouts h w (some ⟨[line], [sx], [ex]⟩ :: t) =
          flat_dropouts_one h w ⟨[line], [sx], [ex]⟩ ++ flat_dropouts h w t
          from rfl,
        flat_dropouts_one_single h w line sx ex hlh, List.count_cons_self,
        List.replicate_succ]
      refine List.Perm.trans ?_
        (List.Perm.cons _ List.perm_middle.symm)
      exact List.Perm.cons _ (List.Perm.cons _ iht)

/-- Effect of a run of `k` Start events at offset `s` on the sweep state. -/
theorem foldl_sweep_starts (thr w s : Nat) :
    ∀ (k : Nat) (st : SweepState),
      List.foldl (sweep_step thr w) st (List.replicate k (s, Dropout.Start)) =
        ⟨st.depth + k,
         if st.depth < thr ∧ thr ≤ st.depth + k then s else st.start, st.out⟩
  | 0, st => by
    obtain ⟨d, t, o⟩ := st
    rw [show List.replicate 0 ((s, Dropout.Start)) = [] from rfl, List.foldl_nil]
    simp only [SweepState.mk.injEq]
    refine ⟨by omega, by rw [if_neg (by omega)], by trivial⟩
  | k + 1, st => by
    obtain ⟨d, t, o⟩ := st
    rw [List.replicate_succ, List.foldl_cons,
      show sweep_step thr w ⟨d, t, o⟩ (s, Dropout.Start) =
        ⟨d + 1, if d + 1 = thr then s else t, o⟩ from rfl,
      foldl_sweep_starts thr w s k]
    simp only [SweepState.mk.injEq]
    refine ⟨by omega, ?_, by trivial⟩
    split_ifs <;> first | rfl | omega

/-- Effect of a run of `k` End events at offset `e` on the sweep state, for a
positive threshold: at most one interval closes, exactly when the threshold
lies in the range of depths the run passes through. -/
theorem foldl_sweep_ends (thr w e : Nat) (hthr : 1 ≤ thr) :
    ∀ (k : Nat) (st : SweepState),
      List.foldl (sweep_step thr w) st (List.replicate k (e, Dropout.End)) =
        ⟨st.depth - k, st.start,
         if thr ≤ st.depth ∧ st.depth < thr + k then
           ⟨st.out.field_line ++ [st.start / w],
            st.out.startx ++ [st.start - st.start / w * w],
            st.out.endx ++ [e - st.start / w * w]⟩
         else st.out⟩
  | 0, st => by
    obtain ⟨d, t, o⟩ := st
    rw [show List.replicate 0 ((e, Dropout.End)) = [] from rfl, List.foldl_nil]
    simp only [SweepState.mk.injEq]
    refine ⟨by omega, by trivial, by rw [if_neg (by omega)]⟩
  | k + 1, st => by
    obtain ⟨d, t, o⟩ := st
    rw [List.replicate_succ, List.foldl_cons,
      show sweep_step thr w ⟨d, t, o⟩ (e, Dropout.End) =
        ⟨d - 1, t,
         if d = thr then
           ⟨o.field_line ++ [t / w], o.startx ++ [t - t / w * w],
            o.endx ++ [e - t / w * w]⟩
         else o⟩ from rfl,
      foldl_sweep_ends thr w e hthr k]
    simp only [SweepState.mk.injEq]
    refine ⟨by omega, by trivial, ?_⟩
    split_ifs <;> first | rfl | omega

/-- Sorted event list of the coinciding-span scenario: `k` Starts then `k` Ends. -/
theorem sortEvents_coinciding (w h line sx ex : Nat)
    (ins : List (Option DropOuts))
    (hins : ∀ o ∈ ins, o = none ∨ o = some ⟨[line], [sx], [ex]⟩)
    (hlh : line < h) (hse : sx < ex) :
    sortEvents (flat_dropouts h w ins) =
      List.replicate (ins.count (some ⟨[line], [sx], [ex]⟩))
          (line * w + sx, Dropout.Start) ++
      List.replicate (ins.count (some ⟨[line], [sx], [ex]⟩))
          (line * w + ex, Dropout.End) := by
  have hfp := flat_perm_coinciding w h line sx ex hlh ins hins
  have hperm : (sortEvents (flat_dropouts h w ins)).Perm
      (List.replicate (ins.count (some ⟨[line], [sx], [ex]⟩))
          (line * w + sx, Dropout.Start) ++
       List.replicate (ins.count (some ⟨[line], [sx], [ex]⟩))
          (line * w + ex, Dropout.End)) :=
    (List.perm_insertionSort evLE _).trans hfp
  have hAB : ((line * w + sx, Dropout.Start) : Nat × Dropout) ≠
      (line * w + ex, Dropout.End) := by
    intro hc
    exact Dropout.noConfusion (congrArg Prod.snd hc)
  have hmem : ∀ e ∈ sortEvents (flat_dropouts h w ins),
      e = (line * w + sx, Dropout.Start) ∨ e = (line * w + ex, Dropout.End) := by
    intro e he
    have hm := hperm.mem_iff.mp he
    rw [List.mem_append, List.mem_replicate, List.mem_replicate] at hm
    tauto
  exact sorted_two_value (x := (line * w + sx, Dropout.Start))
    (y := (line * w + ex, Dropout.End)) (by simp; omega)
    (sortEvents (flat_dropouts h w ins)) _ _
    (List.sorted_insertionSort evLE _) hperm

/-- Result block of the sweep over `k` Starts at `s` then `k` Ends at `e`:
one closed interval when the (positive) threshold is at most `k`, else none. -/
theorem sweep_reps (thr w s e k : Nat) (hthr : 1 ≤ thr) :
    (sweep thr w (List.replicate k (s, Dropout.Start) ++
        List.replicate k (e, Dropout.End))).out =
      if thr ≤ k then ⟨[s / w], [s - s / w * w], [e - s / w * w]⟩
      else (⟨[], [], []⟩ : DropOuts) := by
  unfold sweep
  rw [List.foldl_append, foldl_sweep_starts, foldl_sweep_ends thr w e hthr]
  simp only [Nat.zero_add, List.nil_append]
  by_cases hk : thr ≤ k
  · rw [if_pos ⟨hk, show k < thr + k from by omega⟩, if_pos hk,
      if_pos ⟨show 0 < thr from by omega, hk⟩]
  · rw [if_neg (fun hc => hk hc.1), if_neg hk]

/-- Evaluation of the consensus merge in the coinciding-span scenario, for any
positive threshold: the common span survives exactly when the threshold is at
most the number of contributing inputs. -/
theorem merge_coinciding_eval (w h line sx ex thr : Nat)
    (ins : List (Option DropOuts))
    (hins : ∀ o ∈ ins, o = none ∨ o = some ⟨[line], [sx], [ex]⟩)
    (hlh : line < h) (hse : sx < ex) (hsw : sx < w) (hthr : 1 ≤ thr) :
    (ins.count (some ⟨[line], [sx], [ex]⟩) = 0 →
      merge_dropouts thr w h ins = none) ∧
    (1 ≤ ins.count (some ⟨[line], [sx], [ex]⟩) →
      (thr ≤ ins.count (some ⟨[line], [sx], [ex]⟩) →
        merge_dropouts thr w h ins = some ⟨[line], [sx], [ex]⟩) ∧
      (ins.count (some ⟨[line], [sx], [ex]⟩) < thr →
        merge_dropouts thr w h ins = some ⟨[], [], []⟩)) := by
  have hw : 0 < w := Nat.lt_of_le_of_lt (Nat.zero_le _) hsw
  have hsort := sortEvents_coinciding w h line sx ex ins hins hlh hse
  have hdiv : (line * w + sx) / w = line := by
    rw [Nat.mul_comm, Nat.mul_add_div hw, Nat.div_eq_of_lt hsw]
    omega
  constructor
  · intro hk0
    unfold merge_dropouts
    rw [if_pos (by rw [List.isEmpty_iff, hsort, hk0]; rfl)]
  · intro hk1
    have hne : ¬(sortEvents (flat_dropouts h w ins)).isEmpty = true := by
      rw [List.isEmpty_iff, hsort]
      intro hc
      have hlc := congrArg List.length hc
      rw [List.length_append, List.length_replicate, List.length_replicate]
        at hlc
      simp at hlc
      omega
    have hout := sweep_reps thr w (line * w + sx) (line * w + ex)
      (ins.count (some ⟨[line], [sx], [ex]⟩)) hthr
    constructor
    · intro hthrk
      unfold merge_dropouts
      rw [if_neg hne, hsort, hout, if_pos hthrk, hdiv,
        show line * w + sx - line * w = sx from by omega,
        show line * w + ex - line * w = ex from by omega]
    · intro hkthr
      unfold merge_dropouts
      rw [if_neg hne, hsort, hout, if_neg (by omega)]

/-- C6: in the coinciding-span scenario (every contributing input supplies the
same single valid span), threshold 1 reproduces the union (the span itself),
threshold equal to the input count with all inputs contributing keeps the
intersection (the span itself), and a threshold above the number of
contributing inputs yields no spans (an absent block or one with empty lists). -/
theorem C6_dropout_consensus_coinciding (w h line sx ex : Nat)
    (ins : List (Option DropOuts))
    (hins : ∀ o ∈ ins, o = none ∨ o = some ⟨[line], [sx], [ex]⟩)
    (hlh : line < h) (hse : sx < ex) (hsw : sx < w) :
    (1 ≤ ins.count (some ⟨[line], [sx], [ex]⟩) →
      merge_dropouts 1 w h ins = some ⟨[line], [sx], [ex]⟩) ∧
    ((∀ o ∈ ins, o = some ⟨[line], [sx], [ex]⟩) → 1 ≤ ins.length →
      merge_dropouts ins.length w h ins = some ⟨[line], [sx], [ex]⟩) ∧
    (∀ thr, ins.count (some ⟨[line], [sx], [ex]⟩) < thr →
      merge_dropouts thr w h ins = none ∨
      merge_dropouts thr w h ins = some ⟨[], [], []⟩) := by
  refine ⟨?_, ?_, ?_⟩
  · intro hk1
    exact (((merge_coinciding_eval w h line sx ex 1 ins hins hlh hse hsw
      (le_refl 1)).2 hk1).1 hk1)
  · intro hall hlen
    have hcnt : ins.count (some ⟨[line], [sx], [ex]⟩) = ins.length :=
      List.count_eq_length.mpr fun b hb => (hall b hb).symm
    refine ((merge_coinciding_eval w h line sx ex ins.length ins hins hlh hse
      hsw hlen).2 (by omega)).1 (by omega)
  · intro thr hkthr
    rcases Nat.eq_zero_or_pos (ins.count (some ⟨[line], [sx], [ex]⟩)) with hk | hk
    · exact Or.inl ((merge_coinciding_eval w h line sx ex thr ins hins hlh hse
        hsw (by omega)).1 hk)
    · exact Or.inr (((merge_coinciding_eval w h line sx ex thr ins hins hlh hse
        hsw (by omega)).2 hk).2 hkthr)

/-- Witness for C6: two inputs contribute the span line 1, x in `[2, 4)` of a
10-sample-wide, 5-line field (one input silent); threshold 1 keeps the span,
threshold 2 = N with all inputs contributing keeps the span, threshold 3 > 2
contributing inputs yields no spans. -/
theorem C6_dropout_consensus_coinciding_witness :
    merge_dropouts 1 10 5 [some ⟨[1], [2], [4]⟩, some ⟨[1], [2], [4]⟩, none] =
      some ⟨[1], [2], [4]⟩ ∧
    merge_dropouts 2 10 5 [some ⟨[1], [2], [4]⟩, some ⟨[1], [2], [4]⟩] =
      some ⟨[1], [2], [4]⟩ ∧
    (merge_dropouts 3 10 5 [some ⟨[1], [2], [4]⟩, some ⟨[1], [2], [4]⟩, none] =
      none ∨
     merge_dropouts 3 10 5 [some ⟨[1], [2], [4]⟩, some ⟨[1], [2], [4]⟩, none] =
      some ⟨[], [], []⟩) := by
  refine ⟨?_, ?_, ?_⟩
  · exact (C6_dropout_consensus_coinciding 10 5 1 2 4
      [some ⟨[1], [2], [4]⟩, some ⟨[1], [2], [4]⟩, none]
      (by decide) (by decide) (by decide) (by decide)).1 (by decide)
  · exact (C6_dropout_consensus_coinciding 10 5 1 2 4
      [some ⟨[1], [2], [4]⟩, some ⟨[1], [2], [4]⟩]
      (by decide) (by decide) (by decide) (by decide)).2.1 (by decide) (by decide)
  · exact (C6_dropout_consensus_coinciding 10 5 1 2 4
      [some ⟨[1], [2], [4]⟩, some ⟨[1], [2], [4]⟩, none]
      (by decide) (by decide) (by decide) (by decide)).2.2 3 (by decide)

/-- C7: with duplicate-to-drop conversion enabled, an iteration that detects a
new duplicate boundary advances past the duplicate, appends nothing and arms
`drop_next`; the immediately following fused iteration refreshes `new_field`
from input 0 and advances every cursor but appends nothing and clears
`drop_next`. -/
theorem C7_dupe_drop_suppression (cfg : RunCfg) (s s1 : LoopState)
    (hdd : cfg.dupes_to_drops = true) :
    ((cfg.max_fields = 0 ∨ s.out_fields.length ≠ cfg.max_fields) →
      anyExhausted s.inputs = false →
      anyExhausted (s.inputs.map dupeAdvance) = false →
      shouldWriteDupe s.dupes_written s.inputs = true →
      step cfg s = some { s with inputs := s.inputs.map dupeAdvance,
                                 dupes_written := s.dupes_written + 1,
                                 drop_next := true }) ∧
    ((cfg.max_fields = 0 ∨ s1.out_fields.length ≠ cfg.max_fields) →
      anyExhausted s1.inputs = false →
      anyExhausted (s1.inputs.map dupeAdvance) = false →
      shouldWriteDupe s1.dupes_written s1.inputs = false →
      s1.drop_next = true →
      step cfg s1 = some { s1 with
        inputs := (s1.inputs.map dupeAdvance).map fuseAdvance,
        new_field := ((s1.inputs.map dupeAdvance).getD 0 ⟨[], 0, 0, 0⟩).fields.getD
          ((s1.inputs.map dupeAdvance).getD 0 ⟨[], 0, 0, 0⟩).field_index 0,
        drop_next := false }) := by
  constructor
  · intro h1 h2 h3 h4
    have hnot : ¬(cfg.max_fields ≠ 0 ∧ s.out_fields.length = cfg.max_fields) := by
      tauto
    simp [step, hnot, h2, h3, h4, hdd]
  · intro h1 h2 h3 h4 h5
    have hnot : ¬(cfg.max_fields ≠ 0 ∧ s1.out_fields.length = cfg.max_fields) := by
      tauto
    simp [step, hnot, h2, h3, h4, emitTail, h5]

/-- Witness for C7: a concrete three-input state where input 1 sits on a fresh
duplicate (first part), followed by a `drop_next` iteration that fuses and
advances but appends nothing (second part). -/
theorem C7_dupe_drop_suppression_witness :
    step ⟨0, true⟩
      ⟨[⟨[1, 2, 3], 1, 0, 1⟩, ⟨[1, 1, 2], 1, 0, 1⟩, ⟨[1, 2, 3], 1, 0, 1⟩],
        [10], 0, false, 1⟩ =
      some { (⟨[⟨[1, 2, 3], 1, 0, 1⟩, ⟨[1, 1, 2], 1, 0, 1⟩, ⟨[1, 2, 3], 1, 0, 1⟩],
        [10], 0, false, 1⟩ : LoopState) with
          inputs := ([⟨[1, 2, 3], 1, 0, 1⟩, ⟨[1, 1, 2], 1, 0, 1⟩,
            ⟨[1, 2, 3], 1, 0, 1⟩] : List InputState).map dupeAdvance,
          dupes_written := 0 + 1, drop_next := true } ∧
    step ⟨0, true⟩
      ⟨[⟨[1, 2, 3], 1, 0, 1⟩, ⟨[1, 2, 3], 1, 0, 1⟩, ⟨[1, 2, 3], 1, 0, 1⟩],
        [10], 1, true, 1⟩ =
      some ⟨[⟨[1, 2, 3], 2, 0, 2⟩, ⟨[1, 2, 3], 2, 0, 2⟩, ⟨[1, 2, 3], 2, 0, 2⟩],
        [10], 1, false, 2⟩ := by
  constructor
  · exact (C7_dupe_drop_suppression ⟨0, true⟩
      ⟨[⟨[1, 2, 3], 1, 0, 1⟩, ⟨[1, 1, 2], 1, 0, 1⟩, ⟨[1, 2, 3], 1, 0, 1⟩],
        [10], 0, false, 1⟩
      ⟨[⟨[1, 2, 3], 1, 0, 1⟩, ⟨[1, 2, 3], 1, 0, 1⟩, ⟨[1, 2, 3], 1, 0, 1⟩],
        [10], 1, true, 1⟩ rfl).1
      (Or.inl rfl) (by decide) (by decide) (by decide)
  · have h := (C7_dupe_drop_suppression ⟨0, true⟩
      ⟨[⟨[1, 2, 3], 1, 0, 1⟩, ⟨[1, 1, 2], 1, 0, 1⟩, ⟨[1, 2, 3], 1, 0, 1⟩],
        [10], 0, false, 1⟩
      ⟨[⟨[1, 2, 3], 1, 0, 1⟩, ⟨[1, 2, 3], 1, 0, 1⟩, ⟨[1, 2, 3], 1, 0, 1⟩],
        [10], 1, true, 1⟩ rfl).2
      (Or.inl rfl) (by decide) (by decide) (by decide) rfl
    rw [h]
    decide

/-- Monotone comparison of two `countP`s over a `flatMap`, from the per-piece
comparison. -/
theorem countP_flatMap_le {α β : Type} (p q : β → Bool) (f : α → List β) :
    ∀ L : List α, (∀ a ∈ L, (f a).countP p ≤ (f a).countP q) →
      (L.flatMap f).countP p ≤ (L.flatMap f).countP q
  | [], _ => le_refl _
  | a :: t, hall => by
    rw [List.flatMap_cons, List.countP_append, List.countP_append]
    exact Nat.add_le_add (hall a (List.mem_cons_self _ _))
      (countP_flatMap_le p q f t fun b hb => hall b (List.mem_cons_of_mem _ hb))

/-- For a single strict span's event pair, an End at offset at most `o` forces
a Start at offset strictly below `o`. -/
theorem cnt_pair_le (s e o : Nat) (hse : s < e) :
    cntE o [(s, Dropout.Start), (e, Dropout.End)] ≤
      cntS o [(s, Dropout.Start), (e, Dropout.End)] := by
  unfold cntE cntS
  by_cases he : e ≤ o
  · have hs : s < o := by omega
    simp [List.countP_cons, he, hs]
  · simp [List.countP_cons, he]

/-- For one input's events built from strict spans, Ends at offsets `≤ o` are
covered by Starts at offsets `< o` (each span's Start is strictly earlier). -/
theorem cntE_le_cntS_one (h w o : Nat) (d : DropOuts)
    (hv : ∀ j < d.field_line.length, d.startx.getD j 0 < d.endx.getD j 0) :
    cntE o (flat_dropouts_one h w d) ≤ cntS o (flat_dropouts_one h w d) := by
  unfold cntE cntS flat_dropouts_one
  refine countP_flatMap_le _ _ _ _ fun j hj => ?_
  have hjlt : j < d.field_line.length := List.mem_range.mp hj
  by_cases hline : h ≤ d.field_line.getD j 0
  · rw [if_pos hline]
    exact le_refl _
  · rw [if_neg hline]
    exact cnt_pair_le _ _ o (by have := hv j hjlt; omega)

/-- Over all inputs: Ends at offsets `≤ o` are covered by Starts at `< o`. -/
theorem cntE_le_cntS (h w o : Nat) (ins : List (Option DropOuts))
    (hv : ∀ oo ∈ ins, ∀ d : DropOuts, oo = some d →
      ∀ j < d.field_line.length, d.startx.getD j 0 < d.endx.getD j 0) :
    cntE o (flat_dropouts h w ins) ≤ cntS o (flat_dropouts h w ins) := by
  unfold cntE cntS flat_dropouts
  refine countP_flatMap_le _ _ _ _ fun oo hoo => ?_
  cases oo with
  | none => exact le_refl _
  | some d => exact cntE_le_cntS_one h w o d (hv (some d) hoo d rfl)

/-- In any offset-sorted arrangement of events whose multiset satisfies the
Start/End covering property, the prefix before each End event holds strictly
more Starts than Ends. -/
theorem end_split_balance (l F : List (Nat × Dropout)) (hperm : l.Perm F)
    (hsorted : List.Pairwise evLE l) (hcnt : ∀ o, cntE o F ≤ cntS o F) :
    ∀ P o R, l = P ++ (o, Dropout.End) :: R → nE P + 1 ≤ nS P := by
  intro P o R hsplit
  subst hsplit
  have hPa := List.pairwise_append.mp hsorted
  have hPle : ∀ a ∈ P, a.1 ≤ o := fun a ha =>
    hPa.2.2 a ha _ (List.mem_cons_self _ _)
  have hRge : ∀ b ∈ R, o ≤ b.1 := fun b hb =>
    (List.pairwise_cons.mp hPa.2.1).1 b hb
  have s1 : nE P + 1 ≤ cntE o (P ++ (o, Dropout.End) :: R) := by
    unfold cntE nE
    rw [List.countP_append, List.countP_cons]
    have hm : List.countP (fun x => decide (x.2 = Dropout.End)) P ≤
        List.countP (fun x => decide (x.2 = Dropout.End) && decide (x.1 ≤ o)) P := by
      refine List.countP_mono_left fun x hx hpx => ?_
      simp only [Bool.and_eq_true, decide_eq_true_eq] at hpx ⊢
      exact ⟨hpx, hPle x hx⟩
    have hh : (if (decide ((o, Dropout.End).2 = Dropout.End) &&
        decide ((o, Dropout.End).1 ≤ o)) = true then 1 else 0) = 1 := by
      simp
    omega
  have s2 : cntE o (P ++ (o, Dropout.End) :: R) ≤
      cntS o (P ++ (o, Dropout.End) :: R) := by
    calc cntE o (P ++ (o, Dropout.End) :: R) = cntE o F := hperm.countP_eq _
    _ ≤ cntS o F := hcnt o
    _ = cntS o (P ++ (o, Dropout.End) :: R) := (hperm.countP_eq _).symm
  have s3 : cntS o (P ++ (o, Dropout.End) :: R) ≤ nS P := by
    unfold cntS nS
    rw [List.countP_append, List.countP_cons]
    have hz : List.countP
        (fun x => decide (x.2 = Dropout.Start) && decide (x.1 < o)) R = 0 := by
      rw [List.countP_eq_zero]
      intro a ha
      simp only [Bool.and_eq_true, decide_eq_true_eq, not_and]
      intro _ hlt
      exact absurd hlt (Nat.not_lt.mpr (hRge a ha))
    have hh : (if (decide ((o, Dropout.End).2 = Dropout.Start) &&
        decide ((o, Dropout.End).1 < o)) = true then 1 else 0) = 0 := by
      simp
    have hm : List.countP
        (fun x => decide (x.2 = Dropout.Start) && decide (x.1 < o)) P ≤
        List.countP (fun x => decide (x.2 = Dropout.Start)) P := by
      refine List.countP_mono_left fun x _ hpx => ?_
      simp only [Bool.and_eq_true] at hpx
      exact hpx.1
    omega
  omega

/-- The sweep's depth counter never decrements at 0 when every End-prefix of
the event list holds strictly more Starts than Ends. -/
theorem underflowAux_of_balance :
    ∀ (l P : List (Nat × Dropout)),
      (∀ P' o R, P ++ l = P' ++ (o, Dropout.End) :: R → nE P' + 1 ≤ nS P') →
      nE P ≤ nS P →
      underflowFreeAux (nS P - nE P) l = true
  | [], _, _, _ => rfl
  | (o, Dropout.Start) :: r, P, hsplit, hbal => by
    show underflowFreeAux (nS P - nE P + 1) r = true
    have he : P ++ (o, Dropout.Start) :: r = (P ++ [(o, Dropout.Start)]) ++ r := by
      simp
    have h1 : nS (P ++ [(o, Dropout.Start)]) = nS P + 1 := by
      unfold nS
      rw [List.countP_append]
      simp
    have h2 : nE (P ++ [(o, Dropout.Start)]) = nE P := by
      unfold nE
      rw [List.countP_append]
      simp
    have hrec := underflowAux_of_balance r (P ++ [(o, Dropout.Start)])
      (fun P' o' R hx => hsplit P' o' R (by rw [he, hx])) (by omega)
    rw [h1, h2, show nS P + 1 - nE P = nS P - nE P + 1 from by omega] at hrec
    exact hrec
  | (o, Dropout.End) :: r, P, hsplit, hbal => by
    have hb := hsplit P o r rfl
    simp only [underflowFreeAux, Bool.and_eq_true]
    refine ⟨by simp only [bne_iff_ne, ne_eq]; omega, ?_⟩
    have he : P ++ (o, Dropout.End) :: r = (P ++ [(o, Dropout.End)]) ++ r := by
      simp
    have h1 : nS (P ++ [(o, Dropout.End)]) = nS P := by
      unfold nS
      rw [List.countP_append]
      simp
    have h2 : nE (P ++ [(o, Dropout.End)]) = nE P + 1 := by
      unfold nE
      rw [List.countP_append]
      simp
    have hrec := underflowAux_of_balance r (P ++ [(o, Dropout.End)])
      (fun P' o' R hx => hsplit P' o' R (by rw [he, hx])) (by omega)
    rw [h1, h2, show nS P - (nE P + 1) = nS P - nE P - 1 from by omega] at hrec
    exact hrec

/-- C10: when every span satisfies `startx < endx` strictly, every offset-sorted
arrangement of the events (any outcome of the unstable sort) processes each End
at depth at least 1, so `depth -= 1` never underflows; without that
precondition a zero-length span admits a sorted arrangement that processes an
End at depth 0 (where the usize decrement would wrap). -/
theorem C10_sweep_underflow :
    (∀ (h w : Nat) (ins : List (Option DropOuts)) (l : List (Nat × Dropout)),
      (∀ oo ∈ ins, ∀ d : DropOuts, oo = some d →
        ∀ j < d.field_line.length, d.startx.getD j 0 < d.endx.getD j 0) →
      l.Perm (flat_dropouts h w ins) → List.Pairwise evLE l →
      underflowFree l = true) ∧
    (([((5 : Nat), Dropout.End), (5, Dropout.Start)]).Perm
        (flat_dropouts 1 10 [some ⟨[0], [5], [5]⟩]) ∧
     List.Pairwise evLE [((5 : Nat), Dropout.End), (5, Dropout.Start)] ∧
     underflowFree [((5 : Nat), Dropout.End), (5, Dropout.Start)] = false) := by
  constructor
  · intro h w ins l hv hperm hsorted
    have hbal := end_split_balance l (flat_dropouts h w ins) hperm hsorted
      (fun o => cntE_le_cntS h w o ins hv)
    have hrun := underflowAux_of_balance l []
      (fun P' o R hx => hbal P' o R (by simpa using hx)) (le_refl _)
    simpa [underflowFree, nS, nE] using hrun
  · refine ⟨by decide, by decide, by decide⟩

/-- Witness for C10's universal part: one strict span, x in `[2, 5)` of line 0,
and its offset-sorted event arrangement; the sweep is underflow-free. -/
theorem C10_sweep_underflow_witness :
    underflowFree [((2 : Nat), Dropout.Start), (5, Dropout.End)] = true :=
  C10_sweep_underflow.1 1 10 [some ⟨[0], [2], [5]⟩]
    [((2 : Nat), Dropout.Start), (5, Dropout.End)]
    (by decide) (by decide) (by decide)

/-- A compare-exchange preserves the wire count. -/
theorem length_sort2 (l : List Nat) (p : Nat × Nat) :
    (sort2 l p).length = l.length := by
  unfold sort2
  rw [List.length_set, List.length_set]

/-- A network run preserves the wire count. -/
theorem length_sortN : ∀ (net : List (Nat × Nat)) (l : List Nat),
    (sortN net l).length = l.length
  | [], _ => rfl
  | p :: net, l => by
    unfold sortN
    rw [List.foldl_cons, show List.foldl sort2 (sort2 l p) net =
      sortN net (sort2 l p) from rfl, length_sortN net (sort2 l p),
      length_sort2]

/-- A bit-plane compare-exchange preserves the wire count. -/
theorem length_sort2B (l : List Nat) (p : Nat × Nat) :
    (sort2B l p).length = l.length := by
  unfold sort2B
  rw [List.length_set, List.length_set]

/-- A bit-plane network run preserves the wire count. -/
theorem length_sortNB : ∀ (net : List (Nat × Nat)) (l : List Nat),
    (sortNB net l).length = l.length
  | [], _ => rfl
  | p :: net, l => by
    unfold sortNB
    rw [List.foldl_cons, show List.foldl sort2B (sort2B l p) net =
      sortNB net (sort2B l p) from rfl, length_sortNB net (sort2B l p),
      length_sort2B]

/-- In-range `getD` commutes with `map`. -/
theorem getD_map_of_lt {f : Nat → Nat} (l : List Nat) (i : Nat)
    (hi : i < l.length) (d d' : Nat) :
    (l.map f).getD i d = f (l.getD i d') := by
  rw [List.getD_eq_getElem _ _ (by simpa using hi), List.getD_eq_getElem _ _ hi,
    List.getElem_map]

/-- A monotone map commutes with `Nat.min`. -/
theorem map_nat_min {f : Nat → Nat} (hf : Monotone f) (a b : Nat) :
    f (Nat.min a b) = Nat.min (f a) (f b) := by
  show f (if a ≤ b then a else b) = if f a ≤ f b then f a else f b
  by_cases h : a ≤ b
  · rw [if_pos h, if_pos (hf h)]
  · have hba : b ≤ a := Nat.le_of_not_le h
    rw [if_neg h]
    by_cases h2 : f a ≤ f b
    · rw [if_pos h2]
      exact Nat.le_antisymm (hf hba) h2
    · rw [if_neg h2]

/-- A monotone map commutes with `Nat.max`. -/
theorem map_nat_max {f : Nat → Nat} (hf : Monotone f) (a b : Nat) :
    f (Nat.max a b) = Nat.max (f a) (f b) := by
  show f (if a ≤ b then b else a) = if f a ≤ f b then f b else f a
  by_cases h : a ≤ b
  · rw [if_pos h, if_pos (hf h)]
  · have hba : b ≤ a := Nat.le_of_not_le h
    rw [if_neg h]
    by_cases h2 : f a ≤ f b
    · rw [if_pos h2]
      exact (Nat.le_antisymm (hf hba) h2).symm
    · rw [if_neg h2]

/-- A monotone map commutes with an in-bounds compare-exchange. -/
theorem sort2_map_mono {f : Nat → Nat} (hf : Monotone f) (l : List Nat)
    (p : Nat × Nat) (h1 : p.1 < l.length) (h2 : p.2 < l.length) :
    sort2 (l.map f) p = (sort2 l p).map f := by
  unfold sort2
  rw [getD_map_of_lt l p.1 h1 0 0, getD_map_of_lt l p.2 h2 0 0,
    List.map_set, List.map_set, map_nat_min hf, map_nat_max hf]

/-- A monotone map commutes with a bounded network run (Knuth's monotone-map
half of the 0-1 principle). -/
theorem sortN_map_mono {f : Nat → Nat} (hf : Monotone f) :
    ∀ (net : List (Nat × Nat)) (l : List Nat),
      netBounded l.length net = true →
      sortN net (l.map f) = (sortN net l).map f
  | [], _, _ => rfl
  | p :: net, l, hb => by
    unfold netBounded at hb
    rw [List.all_cons, Bool.and_eq_true, Bool.and_eq_true, decide_eq_true_eq,
      decide_eq_true_eq] at hb
    obtain ⟨⟨hp1, hp2⟩, hrest⟩ := hb
    unfold sortN
    rw [List.foldl_cons, List.foldl_cons,
      show List.foldl sort2 (sort2 (l.map f) p) net =
        sortN net (sort2 (l.map f) p) from rfl,
      show List.foldl sort2 (sort2 l p) net = sortN net (sort2 l p) from rfl,
      sort2_map_mono hf l p hp1 hp2]
    exact sortN_map_mono hf net (sort2 l p)
      (by rw [show (sort2 l p).length = l.length from length_sort2 l p]; exact hrest)

/-- The spec-side sort commutes with a monotone map. -/
theorem insertionSort_map_mono {f : Nat → Nat} (hf : Monotone f) (l : List Nat) :
    List.insertionSort (fun a b : Nat => a ≤ b) (l.map f) =
      (List.insertionSort (fun a b : Nat => a ≤ b) l).map f := by
  refine List.eq_of_perm_of_sorted ?_ (List.sorted_insertionSort _ _) ?_
  · exact (List.perm_insertionSort _ _).trans
      (((List.perm_insertionSort _ l).map f).symm)
  · exact List.Pairwise.map f (fun a b hab => hf hab)
      (List.sorted_insertionSort _ l)

/-- The threshold indicator used in the 0-1 principle is monotone. -/
theorem thr_monotone (t : Nat) :
    Monotone (fun x : Nat => if t ≤ x then (1 : Nat) else 0) := by
  intro a b hab
  show (if t ≤ a then (1 : Nat) else 0) ≤ (if t ≤ b then (1 : Nat) else 0)
  by_cases h : t ≤ a
  · rw [if_pos h, if_pos (le_trans h hab)]
  · rw [if_neg h]
    exact Nat.zero_le _

/-- Every 0-1 list of length `n` is `bitsOf n u` for some `u < 2 ^ n`. -/
theorem bitsOf_encode : ∀ l : List Nat, (∀ x ∈ l, x ≤ 1) →
    ∃ u, u < 2 ^ l.length ∧ bitsOf l.length u = l
  | [], _ => ⟨0, by simp, rfl⟩
  | a :: t, h01 => by
    obtain ⟨u, hu, hb⟩ :=
      bitsOf_encode t fun x hx => h01 x (List.mem_cons_of_mem _ hx)
    have ha : a ≤ 1 := h01 a (List.mem_cons_self _ _)
    refine ⟨a + 2 * u, ?_, ?_⟩
    · have hp : 2 ^ (t.length + 1) = 2 * 2 ^ t.length := by
        rw [pow_succ]
        omega
      show a + 2 * u < 2 ^ (t.length + 1)
      omega
    · show ((a + 2 * u) % 2) :: bitsOf t.length ((a + 2 * u) / 2) = a :: t
      rw [show (a + 2 * u) % 2 = a from by omega,
        show (a + 2 * u) / 2 = u from by omega, hb]

/-- Knuth's 0-1 principle, specialised to one output position: if the network
agrees with the spec-side sort at position `k` on every 0-1 input of length
`n`, it agrees there on every input of length `n`. -/
theorem zero_one_principle (net : List (Nat × Nat)) (n k : Nat) (hk : k < n)
    (hb : netBounded n net = true)
    (h01 : ∀ u, u < 2 ^ n → (sortN net (bitsOf n u)).getD k 0 =
      (List.insertionSort (fun a b : Nat => a ≤ b) (bitsOf n u)).getD k 0) :
    ∀ v : List Nat, v.length = n → (sortN net v).getD k 0 =
      (List.insertionSort (fun a b : Nat => a ≤ b) v).getD k 0 := by
  intro v hv
  have key : ∀ t : Nat,
      (if t ≤ (sortN net v).getD k 0 then (1 : Nat) else 0) =
      (if t ≤ (List.insertionSort (fun a b : Nat => a ≤ b) v).getD k 0
        then (1 : Nat) else 0) := by
    intro t
    have hmono := thr_monotone t
    have h1 := sortN_map_mono hmono net v (hv ▸ hb)
    have h2 := insertionSort_map_mono hmono v
    have h01v : ∀ x ∈ v.map fun x => if t ≤ x then (1 : Nat) else 0, x ≤ 1 := by
      intro x hx
      obtain ⟨y, -, rfl⟩ := List.mem_map.mp hx
      by_cases h : t ≤ y
      · rw [if_pos h]
      · rw [if_neg h]
        omega
    obtain ⟨u, hu, hbits⟩ := bitsOf_encode _ h01v
    have hlenm : (v.map fun x => if t ≤ x then (1 : Nat) else 0).length = n := by
      simpa using hv
    rw [hlenm] at hu hbits
    have hx := h01 u hu
    rw [hbits, h1, h2] at hx
    rw [getD_map_of_lt _ k (by rw [length_sortN, hv]; exact hk) 0 0,
      getD_map_of_lt _ k (by rw [List.length_insertionSort, hv]; exact hk) 0 0]
      at hx
    exact hx
  have hab : (sortN net v).getD k 0 ≤
      (List.insertionSort (fun a b : Nat => a ≤ b) v).getD k 0 := by
    have h := key ((sortN net v).getD k 0)
    rw [if_pos (le_refl _)] at h
    by_contra hc
    rw [if_neg (fun hcc => hc hcc)] at h
    exact absurd h.symm (by omega)
  have hba : (List.insertionSort (fun a b : Nat => a ≤ b) v).getD k 0 ≤
      (sortN net v).getD k 0 := by
    have h := key ((List.insertionSort (fun a b : Nat => a ≤ b) v).getD k 0)
    rw [if_pos (le_refl _)] at h
    by_contra hc
    rw [if_neg (fun hcc => hc hcc)] at h
    exact absurd h (by omega)
  exact Nat.le_antisymm hab hba

/-- Bit slice of a bitwise AND is the `Nat.min` of the bit slices. -/
theorem bitVal_land (t a b : Nat) :
    bitVal t (Nat.land a b) = Nat.min (bitVal t a) (bitVal t b) := by
  unfold bitVal
  rw [show Nat.land a b = a &&& b from rfl, Nat.testBit_land]
  cases a.testBit t <;> cases b.testBit t <;> rfl

/-- Bit slice of a bitwise OR is the `Nat.max` of the bit slices. -/
theorem bitVal_lor (t a b : Nat) :
    bitVal t (Nat.lor a b) = Nat.max (bitVal t a) (bitVal t b) := by
  unfold bitVal
  rw [show Nat.lor a b = a ||| b from rfl, Nat.testBit_lor]
  cases a.testBit t <;> cases b.testBit t <;> rfl

/-- Slicing one test case out of a bit-plane compare-exchange gives the scalar
compare-exchange of the sliced wires. -/
theorem sort2B_slice (t : Nat) (l : List Nat) (p : Nat × Nat)
    (h1 : p.1 < l.length) (h2 : p.2 < l.length) :
    (sort2B l p).map (bitVal t) = sort2 (l.map (bitVal t)) p := by
  unfold sort2B sort2
  rw [List.map_set, List.map_set, getD_map_of_lt l p.1 h1 0 0,
    getD_map_of_lt l p.2 h2 0 0, bitVal_land, bitVal_lor]

/-- Slicing one test case out of a bit-plane network run gives the scalar
network run on the sliced wires. -/
theorem sortNB_slice (t : Nat) :
    ∀ (net : List (Nat × Nat)) (l : List Nat),
      netBounded l.length net = true →
      (sortNB net l).map (bitVal t) = sortN net (l.map (bitVal t))
  | [], _, _ => rfl
  | p :: net, l, hb => by
    unfold netBounded at hb
    rw [List.all_cons, Bool.and_eq_true, Bool.and_eq_true, decide_eq_true_eq,
      decide_eq_true_eq] at hb
    obtain ⟨⟨hp1, hp2⟩, hrest⟩ := hb
    unfold sortNB sortN
    rw [List.foldl_cons, List.foldl_cons,
      show List.foldl sort2B (sort2B l p) net = sortNB net (sort2B l p) from rfl,
      show List.foldl sort2 (sort2 (l.map (bitVal t)) p) net =
        sortN net (sort2 (l.map (bitVal t)) p) from rfl,
      ← sort2B_slice t l p hp1 hp2]
    exact sortNB_slice t net (sort2B l p)
      (by rw [show (sort2B l p).length = l.length from length_sort2B l p]
          exact hrest)

/-- Bit `t` of `a + 2 ^ m * b` for `a < 2 ^ m`: low bits come from `a`, high
bits from `b`. -/
theorem testBit_add_pow (m a b t : Nat) (ha : a < 2 ^ m) :
    (a + 2 ^ m * b).testBit t =
      if t < m then a.testBit t else b.testBit (t - m) := by
  by_cases ht : t < m
  · rw [if_pos ht, Nat.testBit_to_div_mod, Nat.testBit_to_div_mod]
    congr 1
    have he : (2:Nat) ^ m = 2 ^ t * 2 ^ (m - t) := by
      rw [← pow_add]
      congr 1
      omega
    have he2 : (2:Nat) ^ (m - t) = 2 * 2 ^ (m - t - 1) := by
      rw [← pow_succ']
      congr 1
      omega
    rw [he, Nat.mul_assoc,
      Nat.add_mul_div_left _ _ (Nat.pow_pos (by norm_num)), he2,
      Nat.mul_assoc, Nat.add_mul_mod_self_left]
  · rw [if_neg ht, Nat.testBit_to_div_mod, Nat.testBit_to_div_mod]
    congr 1
    have he : (2:Nat) ^ t = 2 ^ m * 2 ^ (t - m) := by
      rw [← pow_add]
      congr 1
      omega
    rw [he, ← Nat.div_div_eq_div_mul,
      Nat.add_mul_div_left _ _ (Nat.pow_pos (by norm_num)),
      Nat.div_eq_of_lt ha, Nat.zero_add]

/-- The wire planes fit in `2 ^ 2 ^ n` bits. -/
theorem wirePat_lt : ∀ n i, wirePat n i < 2 ^ 2 ^ n
  | 0, _ => by norm_num [wirePat]
  | n + 1, i => by
    have hpow : (2:Nat) ^ 2 ^ (n + 1) = 2 ^ 2 ^ n * 2 ^ 2 ^ n := by
      rw [← pow_add]
      congr 1
      rw [pow_succ]
      omega
    have h1 : 1 ≤ (2:Nat) ^ 2 ^ n := Nat.one_le_two_pow
    unfold wirePat
    by_cases h : i = n
    · rw [if_pos h, hpow]
      exact (Nat.mul_lt_mul_right (by omega)).mpr (by omega)
    · rw [if_neg h, hpow]
      have hw := wirePat_lt n i
      obtain ⟨y, hy⟩ : ∃ y, (2:Nat) ^ 2 ^ n = y + 1 := ⟨2 ^ 2 ^ n - 1, by omega⟩
      rw [hy] at hw ⊢
      nlinarith [hw]

/-- The expected planes fit in `2 ^ 2 ^ n` bits. -/
theorem ePat_lt : ∀ n k, ePat n k < 2 ^ 2 ^ n
  | 0, _ => by norm_num [ePat]
  | n + 1, k => by
    have hpow : (2:Nat) ^ 2 ^ (n + 1) = 2 ^ 2 ^ n * 2 ^ 2 ^ n := by
      rw [← pow_add]
      congr 1
      rw [pow_succ]
      omega
    have hlow : (if k = 0 then 0 else ePat n (k - 1)) < 2 ^ 2 ^ n := by
      split_ifs
      · exact Nat.pow_pos (by norm_num)
      · exact ePat_lt n (k - 1)
    have he := ePat_lt n k
    show (if k = 0 then 0 else ePat n (k - 1)) + 2 ^ 2 ^ n * ePat n k <
      2 ^ 2 ^ (n + 1)
    rw [hpow]
    obtain ⟨y, hy⟩ : ∃ y, (2:Nat) ^ 2 ^ n = y + 1 :=
      ⟨2 ^ 2 ^ n - 1, by have : 1 ≤ (2:Nat) ^ 2 ^ n := Nat.one_le_two_pow; omega⟩
    rw [hy] at hlow he ⊢
    nlinarith [hlow, he]

/-- Bit `t` of wire plane `i` is bit `i` of the test case `t`. -/
theorem wirePat_testBit : ∀ n i t, i < n → t < 2 ^ n →
    (wirePat n i).testBit t = t.testBit i
  | 0, i, _, hi, _ => absurd hi (Nat.not_lt_zero i)
  | n + 1, i, t, hi, ht => by
    have hp2 : (2:Nat) ^ (n + 1) = 2 ^ n + 2 ^ n := by
      rw [pow_succ]
      omega
    unfold wirePat
    by_cases h : i = n
    · subst h
      rw [if_pos rfl,
        show (2 ^ 2 ^ i - 1) * 2 ^ 2 ^ i = 0 + 2 ^ 2 ^ i * (2 ^ 2 ^ i - 1)
          from by rw [Nat.zero_add, Nat.mul_comm],
        testBit_add_pow (2 ^ i) 0 _ t (Nat.pow_pos (by norm_num))]
      by_cases htl : t < 2 ^ i
      · rw [if_pos htl, Nat.zero_testBit]
        exact (Nat.testBit_lt_two_pow htl).symm
      · rw [if_neg htl, Nat.testBit_two_pow_sub_one]
        have hb1 : t - 2 ^ i < 2 ^ i := by omega
        have hb2 : t.testBit i = true := by
          rw [Nat.testBit_to_div_mod,
            show t / 2 ^ i = 1 from Nat.div_eq_of_lt_le (by omega) (by omega)]
          rfl
        rw [hb2]
        simp [hb1]
    · have hin : i < n := by omega
      rw [if_neg h, testBit_add_pow (2 ^ n) _ _ t (wirePat_lt n i)]
      by_cases htl : t < 2 ^ n
      · rw [if_pos htl]
        exact wirePat_testBit n i t hin htl
      · rw [if_neg htl, wirePat_testBit n i (t - 2 ^ n) hin (by omega)]
        have hts : t = (t - 2 ^ n) + 2 ^ n * 1 := by omega
        conv_rhs => rw [hts]
        rw [testBit_add_pow n _ 1 i (by omega), if_pos hin]

/-- Popcount of the low `n` bits is at most `n`. -/
theorem pc_le : ∀ n t, pc n t ≤ n
  | 0, _ => le_refl 0
  | n + 1, t => by
    show t % 2 + pc n (t / 2) ≤ n + 1
    have := pc_le n (t / 2)
    omega

/-- Extending the bit range by a top zero bit keeps the popcount. -/
theorem pc_low : ∀ n t, t < 2 ^ n → pc (n + 1) t = pc n t
  | 0, t, ht => by
    have h1 : (2:Nat) ^ 0 = 1 := rfl
    have ht0 : t = 0 := by omega
    subst ht0
    rfl
  | n + 1, t, ht => by
    have hp : (2:Nat) ^ (n + 1) = 2 ^ n + 2 ^ n := by
      rw [pow_succ]
      omega
    show t % 2 + pc (n + 1) (t / 2) = t % 2 + pc n (t / 2)
    rw [pc_low n (t / 2) (by omega)]

/-- Adding the top bit adds one to the popcount. -/
theorem pc_high : ∀ n t, t < 2 ^ n → pc (n + 1) (t + 2 ^ n) = pc n t + 1
  | 0, t, ht => by
    have h1 : (2:Nat) ^ 0 = 1 := rfl
    have ht0 : t = 0 := by omega
    subst ht0
    rfl
  | n + 1, t, ht => by
    have hp : (2:Nat) ^ (n + 1) = 2 ^ n + 2 ^ n := by
      rw [pow_succ]
      omega
    show (t + 2 ^ (n + 1)) % 2 + pc (n + 1) ((t + 2 ^ (n + 1)) / 2) =
      (t % 2 + pc n (t / 2)) + 1
    rw [show (t + 2 ^ (n + 1)) % 2 = t % 2 from by omega,
      show (t + 2 ^ (n + 1)) / 2 = t / 2 + 2 ^ n from by omega,
      pc_high n (t / 2) (by omega)]
    omega

/-- Bit `t` of the expected plane for output position `k`: set exactly when
the sorted 0-1 test case `t` has a 1 at position `k`. -/
theorem ePat_testBit : ∀ n k t, t < 2 ^ n →
    ((ePat n k).testBit t = true ↔ n - pc n t ≤ k)
  | 0, k, t, ht => by
    have h1 : (2:Nat) ^ 0 = 1 := rfl
    have ht0 : t = 0 := by omega
    subst ht0
    show ((1:Nat).testBit 0 = true ↔ 0 - pc 0 0 ≤ k)
    simp [Nat.testBit_zero]
  | n + 1, k, t, ht => by
    have hp : (2:Nat) ^ (n + 1) = 2 ^ n + 2 ^ n := by
      rw [pow_succ]
      omega
    have hlow : (if k = 0 then 0 else ePat n (k - 1)) < 2 ^ 2 ^ n := by
      split_ifs
      · exact Nat.pow_pos (by norm_num)
      · exact ePat_lt n (k - 1)
    show (((if k = 0 then 0 else ePat n (k - 1)) +
      2 ^ 2 ^ n * ePat n k).testBit t = true ↔ n + 1 - pc (n + 1) t ≤ k)
    rw [testBit_add_pow (2 ^ n) _ _ t hlow]
    by_cases htl : t < 2 ^ n
    · rw [if_pos htl]
      have hpcl := pc_low n t htl
      have hple := pc_le n t
      by_cases hk : k = 0
      · subst hk
        rw [if_pos rfl, Nat.zero_testBit]
        constructor
        · intro hc
          exact absurd hc (by simp)
        · intro hc
          exfalso
          omega
      · rw [if_neg hk, ePat_testBit n (k - 1) t htl]
        rw [hpcl]
        omega
    · rw [if_neg htl, ePat_testBit n k (t - 2 ^ n) (by omega)]
      have hts : t = (t - 2 ^ n) + 2 ^ n := by omega
      have hph : pc (n + 1) t = pc n (t - 2 ^ n) + 1 := by
        conv_lhs => rw [hts]
        exact pc_high n (t - 2 ^ n) (by omega)
      have hple := pc_le n (t - 2 ^ n)
      rw [hph]
      omega

/-- Length of the bit list. -/
theorem bitsOf_length : ∀ n t, (bitsOf n t).length = n
  | 0, _ => rfl
  | n + 1, t => by
    show (bitsOf n (t / 2)).length + 1 = n + 1
    rw [bitsOf_length n (t / 2)]

/-- Entry `i` of the bit list is bit `i` of `t`. -/
theorem bitsOf_getD : ∀ n i t, i < n →
    (bitsOf n t).getD i 0 = (t.testBit i).toNat
  | 0, i, _, hi => absurd hi (Nat.not_lt_zero i)
  | n + 1, 0, t, _ => by
    show t % 2 = (t.testBit 0).toNat
    rw [Nat.testBit_zero]
    rcases Nat.mod_two_eq_zero_or_one t with h | h <;> rw [h] <;> rfl
  | n + 1, i + 1, t, hi => by
    show (bitsOf n (t / 2)).getD i 0 = (t.testBit (i + 1)).toNat
    rw [Nat.testBit_succ, bitsOf_getD n i (t / 2) (by omega)]

/-- The bit list is 0-1 valued. -/
theorem bitsOf_le_one : ∀ n t, ∀ x ∈ bitsOf n t, x ≤ 1
  | 0, _, _, hx => absurd hx (List.not_mem_nil _)
  | n + 1, t, x, hx => by
    rcases List.mem_cons.mp hx with h | h
    · subst h
      omega
    · exact bitsOf_le_one n (t / 2) x h

/-- Ones in the bit list are counted by `pc`. -/
theorem bitsOf_count_one : ∀ n t, (bitsOf n t).count 1 = pc n t
  | 0, _ => rfl
  | n + 1, t => by
    show ((t % 2) :: bitsOf n (t / 2)).count 1 = t % 2 + pc n (t / 2)
    rw [List.count_cons, bitsOf_count_one n (t / 2)]
    rcases Nat.mod_two_eq_zero_or_one t with h | h <;> (rw [h]; simp; try omega)

/-- There are `n` wire planes. -/
theorem length_wires (n : Nat) : (wires n).length = n := by
  unfold wires
  rw [List.length_map, List.length_range]

/-- Slicing test case `t` out of all wire planes yields the bit list of `t`. -/
theorem wires_slice (n t : Nat) (ht : t < 2 ^ n) :
    (wires n).map (bitVal t) = bitsOf n t := by
  refine List.ext_getElem ?_ ?_
  · rw [List.length_map, length_wires, bitsOf_length]
  · intro i h1 h2
    have hin : i < n := by
      rw [List.length_map, length_wires] at h1
      exact h1
    have hw : i < (wires n).length := by rw [length_wires]; exact hin
    have hkey : (wires n)[i] = wirePat n i := by
      unfold wires
      rw [List.getElem_map, List.getElem_range]
    rw [List.getElem_map, hkey,
      ← List.getD_eq_getElem (bitsOf n t) 0 h2, bitsOf_getD n i t hin]
    unfold bitVal
    rw [wirePat_testBit n i t hin ht]

/-- A sorted 0-1 list is its zeros followed by its ones. -/
theorem sorted_zero_one : ∀ l : List Nat,
    List.Sorted (fun a b : Nat => a ≤ b) l → (∀ x ∈ l, x ≤ 1) →
    l = List.replicate (l.count 0) 0 ++ List.replicate (l.count 1) 1
  | [], _, _ => rfl
  | a :: t, hs, h01 => by
    have ih := sorted_zero_one t hs.of_cons
      fun x hx => h01 x (List.mem_cons_of_mem _ hx)
    rcases Nat.le_one_iff_eq_zero_or_eq_one.mp (h01 a (List.mem_cons_self _ _))
      with rfl | rfl
    · rw [List.count_cons_self, List.count_cons_of_ne (by decide),
        List.replicate_succ, List.cons_append]
      exact congrArg _ ih
    · have htall : ∀ e ∈ t, e = 1 := fun e he =>
        Nat.le_antisymm (h01 e (List.mem_cons_of_mem _ he))
          (List.rel_of_sorted_cons hs e he)
      have hc0 : t.count 0 = 0 := by
        rw [List.count_eq_zero]
        intro hc
        exact absurd (htall 0 hc) (by decide)
      rw [List.count_cons_of_ne (by decide), List.count_cons_self, hc0,
        List.replicate_zero, List.nil_append, List.replicate_succ]
      rw [hc0, List.replicate_zero, List.nil_append] at ih
      exact congrArg _ ih

/-- Indexing two glued replicate blocks. -/
theorem getD_replicate_append (z o k a b d : Nat) (hk : k < z + o) :
    (List.replicate z a ++ List.replicate o b).getD k d =
      if k < z then a else b := by
  by_cases h : k < z
  · rw [if_pos h,
      List.getD_append _ _ _ _ (by rw [List.length_replicate]; exact h),
      List.getD_eq_getElem _ _ (by rw [List.length_replicate]; exact h),
      List.getElem_replicate]
  · rw [if_neg h,
      List.getD_append_right _ _ _ _ (by rw [List.length_replicate]; omega),
      List.length_replicate,
      List.getD_eq_getElem _ _ (by rw [List.length_replicate]; omega),
      List.getElem_replicate]

/-- Position `k` of the spec-side sort of a 0-1 list: 0 below the number of
zeros, 1 from there on. -/
theorem insertionSort_zero_one_getD (l : List Nat) (h01 : ∀ x ∈ l, x ≤ 1)
    (k : Nat) (hk : k < l.length) :
    (List.insertionSort (fun a b : Nat => a ≤ b) l).getD k 0 =
      if l.length - l.count 1 ≤ k then 1 else 0 := by
  have hs := List.sorted_insertionSort (fun a b : Nat => a ≤ b) l
  have h01s : ∀ x ∈ List.insertionSort (fun a b : Nat => a ≤ b) l, x ≤ 1 :=
    fun x hx => h01 x ((List.perm_insertionSort _ l).subset hx)
  have hdec := sorted_zero_one _ hs h01s
  have hc0 : (List.insertionSort (fun a b : Nat => a ≤ b) l).count 0 =
      l.count 0 := (List.perm_insertionSort _ l).countP_eq _
  have hc1 : (List.insertionSort (fun a b : Nat => a ≤ b) l).count 1 =
      l.count 1 := (List.perm_insertionSort _ l).countP_eq _
  rw [hc0, hc1] at hdec
  have hlen : l.length = l.count 0 + l.count 1 := by
    have hl := congrArg List.length hdec
    rw [List.length_insertionSort, List.length_append, List.length_replicate,
      List.length_replicate] at hl
    exact hl
  rw [hdec, getD_replicate_append _ _ k 0 1 0 (by omega)]
  by_cases h : k < l.count 0
  · rw [if_pos h, if_neg (by omega)]
  · rw [if_neg h, if_pos (by omega)]

/-- Per-position correctness of the generated network for input count `n`,
derived from the decided bit-plane run via the 0-1 principle. -/
theorem netPos_correct (n k : Nat) (hk : k < n)
    (hb : netBounded n (sortNet n) = true)
    (hplane : (sortNB (sortNet n) (wires n)).getD k 0 = ePat n k) :
    ∀ v : List Nat, v.length = n →
      (sortN (sortNet n) v).getD k 0 =
        (List.insertionSort (fun a b : Nat => a ≤ b) v).getD k 0 := by
  refine zero_one_principle (sortNet n) n k hk hb ?_
  intro u hu
  have hws := wires_slice n u hu
  have hbw : netBounded (wires n).length (sortNet n) = true := by
    rw [length_wires]
    exact hb
  have hsl := sortNB_slice u (sortNet n) (wires n) hbw
  have hlhs : (sortN (sortNet n) (bitsOf n u)).getD k 0 =
      bitVal u (ePat n k) := by
    rw [← hws, ← hsl,
      getD_map_of_lt _ k (by rw [length_sortNB, length_wires]; exact hk) 0 0,
      hplane]
  rw [hlhs, insertionSort_zero_one_getD (bitsOf n u) (bitsOf_le_one n u) k
      (by rw [bitsOf_length]; exact hk),
    bitsOf_length, bitsOf_count_one]
  unfold bitVal
  by_cases hcond : n - pc n u ≤ k
  · rw [if_pos hcond, (ePat_testBit n k u hu).mpr hcond]
    rfl
  · rw [if_neg hcond]
    have hfalse : (ePat n k).testBit u = false := by
      rcases Bool.eq_false_or_eq_true ((ePat n k).testBit u) with h | h
      · exact absurd ((ePat_testBit n k u hu).mp h) hcond
      · exact h
    rw [hfalse]
    rfl

/-- C1: for every input count in `[3, 15]`, the generated kernel's fused sample
equals the middle element of the samples sorted ascending (odd count), or the
`_mm_avg_epu16`-rounded average `(v[n/2-1] + v[n/2] + 1) / 2` of the two middle
elements (even count, ties rounded toward the larger value). -/
theorem C1_median_kernel (v : List Nat) (h3 : 3 ≤ v.length)
    (h15 : v.length ≤ 15) : medianN v = specMedian v := by
  obtain ⟨n, hn⟩ : ∃ n, v.length = n := ⟨v.length, rfl⟩
  rw [hn] at h3 h15
  simp only [medianN, specMedian, hn]
  interval_cases n
  · have e := netPos_correct 3 1 (by norm_num) (by decide) (by decide!) v hn
    norm_num
    simp only [List.getD_eq_getElem?_getD] at e
    rw [e]
  · have e1 := netPos_correct 4 1 (by norm_num) (by decide) (by decide!) v hn
    have e2 := netPos_correct 4 2 (by norm_num) (by decide) (by decide!) v hn
    norm_num
    simp only [List.getD_eq_getElem?_getD] at e1 e2
    rw [e1, e2]
  · have e := netPos_correct 5 2 (by norm_num) (by decide) (by decide!) v hn
    norm_num
    simp only [List.getD_eq_getElem?_getD] at e
    rw [e]
  · have e1 := netPos_correct 6 2 (by norm_num) (by decide) (by decide!) v hn
    have e2 := netPos_correct 6 3 (by norm_num) (by decide) (by decide!) v hn
    norm_num
    simp only [List.getD_eq_getElem?_getD] at e1 e2
    rw [e1, e2]
  · have e := netPos_correct 7 3 (by norm_num) (by decide) (by decide!) v hn
    norm_num
    simp only [List.getD_eq_getElem?_getD] at e
    rw [e]
  · have e1 := netPos_correct 8 3 (by norm_num) (by decide) (by decide!) v hn
    have e2 := netPos_correct 8 4 (by norm_num) (by decide) (by decide!) v hn
    norm_num
    simp only [List.getD_eq_getElem?_getD] at e1 e2
    rw [e1, e2]
  · have e := netPos_correct 9 4 (by norm_num) (by decide) (by decide!) v hn
    norm_num
    simp only [List.getD_eq_getElem?_getD] at e
    rw [e]
  · have e1 := netPos_correct 10 4 (by norm_num) (by decide) (by decide!) v hn
    have e2 := netPos_correct 10 5 (by norm_num) (by decide) (by decide!) v hn
    norm_num
    simp only [List.getD_eq_getElem?_getD] at e1 e2
    rw [e1, e2]
  · have e := netPos_correct 11 5 (by norm_num) (by decide) (by decide!) v hn
    norm_num
    simp only [List.getD_eq_getElem?_getD] at e
    rw [e]
  · have e1 := netPos_correct 12 5 (by norm_num) (by decide) (by decide!) v hn
    have e2 := netPos_correct 12 6 (by norm_num) (by decide) (by decide!) v hn
    norm_num
    simp only [List.getD_eq_getElem?_getD] at e1 e2
    rw [e1, e2]
  · have e := netPos_correct 13 6 (by norm_num) (by decide) (by decide!) v hn
    norm_num
    simp only [List.getD_eq_getElem?_getD] at e
    rw [e]
  · have e1 := netPos_correct 14 6 (by norm_num) (by decide) (by decide!) v hn
    have e2 := netPos_correct 14 7 (by norm_num) (by decide) (by decide!) v hn
    norm_num
    simp only [List.getD_eq_getElem?_getD] at e1 e2
    rw [e1, e2]
  · have e := netPos_correct 15 7 (by norm_num) (by decide) (by decide!) v hn
    norm_num
    simp only [List.getD_eq_getElem?_getD] at e
    rw [e]

/-- Witness for C1 at a concrete input: the median of `[5, 3, 9]` is 5. -/
theorem C1_median_kernel_witness :
    medianN [5, 3, 9] = specMedian [5, 3, 9] ∧ medianN [5, 3, 9] = 5 :=
  ⟨C1_median_kernel [5, 3, 9] (by decide) (by decide), by decide⟩
